import Mathlib

set_option autoImplicit false

/-!
Shallow embedding of the claim-relevant parts of the `appchain-anchor`
contract (files `staking.rs`, `validator_set.rs`, `message_decoder.rs`,
`settings_manager.rs`) together with proofs about them.

Machine integers (`u64`, `u128`) are modelled as `Nat` with explicitly
checked arithmetic: the crate is built with integer overflow checks
(standard NEAR release profile; the build manifest is outside `src/`, and
§4.3 of the specification states that any under- or overflow must fail
loudly rather than silently wrap), so an overflowing `+`/`-`/`*` panics,
which aborts the NEAR call and rolls back all persisted state.  A panic is
modelled as `none`.
-/

namespace DiscovolAnchor

/-- Exclusive upper bound of the `u128` balance type. -/
def U128_BOUND : Nat := 2 ^ 128

/-- Exclusive upper bound of the `u64` type. -/
def U64_BOUND : Nat := 2 ^ 64

/-- Modelled from the spec (§4.3, fail-loudly arithmetic: the build profile
enabling overflow checks is outside `src/`): checked addition at a given
exclusive bound; `none` models the panic that aborts the whole call. -/
def checkedAdd (bound a b : Nat) : Option Nat :=
  if a + b < bound then some (a + b) else none

/-- Modelled from the spec (§4.3, fail-loudly arithmetic): checked
subtraction on unsigned integers; `none` models the underflow panic. -/
def checkedSub (a b : Nat) : Option Nat :=
  if b ≤ a then some (a - b) else none

/-!
`near_sdk::collections::LookupMap` is modelled as an association list with
functional insert (overwrite) and remove; `get` returns a detached copy of
the stored value, exactly as the SDK deserializes a fresh value on every
`get`.  `near_sdk::collections::UnorderedSet` is modelled as a duplicate-free
list; its `remove` is order-insensitive here (the SDK swap-removes, but no
claim depends on iteration order).
-/

def alist_get {K V : Type} [DecidableEq K] : List (K × V) → K → Option V
  | [], _ => none
  | p :: t, k => if p.1 = k then some p.2 else alist_get t k

def alist_remove {K V : Type} [DecidableEq K] : List (K × V) → K → List (K × V)
  | [], _ => []
  | p :: t, k => if p.1 = k then alist_remove t k else p :: alist_remove t k

def alist_insert {K V : Type} [DecidableEq K] (m : List (K × V)) (k : K) (v : V) :
    List (K × V) :=
  (k, v) :: alist_remove m k

def alist_contains {K V : Type} [DecidableEq K] (m : List (K × V)) (k : K) : Bool :=
  (alist_get m k).isSome

def uset_insert {K : Type} [DecidableEq K] (s : List K) (k : K) : List K :=
  if k ∈ s then s else s ++ [k]

def uset_remove {K : Type} [DecidableEq K] (s : List K) (k : K) : List K :=
  s.filter (fun x => x ≠ k)

/-- The NEAR runtime context: `env::block_index()` and
`env::block_timestamp()`. -/
structure Env where
  block_height : Nat
  block_timestamp : Nat
  deriving Repr, DecidableEq

/-- Account id in NEAR protocol (`AccountId`). -/
abbrev AccountId := String

/-- Account id in the appchain (`AccountIdInAppchain`). -/
abbrev AccountIdInAppchain := String

/-- Modelled from the spec: the time-unit constants of the crate root
(outside `src/`); unlock periods are day counts converted to nanoseconds. -/
def SECONDS_OF_A_DAY : Nat := 86400

/-- Modelled from the spec: nanoseconds per second, crate-root constant. -/
def NANO_SECONDS_MULTIPLE : Nat := 1000000000

/-- `types::StakingFact`: a tagged record of one stake-affecting action. -/
inductive StakingFact
  | ValidatorRegistered (validator_id : AccountId)
      (validator_id_in_appchain : AccountIdInAppchain)
      (amount : Nat) (can_be_delegated_to : Bool)
  | StakeIncreased (validator_id : AccountId) (amount : Nat)
  | StakeDecreased (validator_id : AccountId) (amount : Nat)
  | ValidatorUnbonded (validator_id : AccountId) (amount : Nat)
  | ValidatorDelegationEnabled (validator_id : AccountId)
  | ValidatorDelegationDisabled (validator_id : AccountId)
  | DelegatorRegistered (delegator_id : AccountId) (validator_id : AccountId)
      (amount : Nat)
  | DelegationIncreased (delegator_id : AccountId) (validator_id : AccountId)
      (amount : Nat)
  | DelegationDecreased (delegator_id : AccountId) (validator_id : AccountId)
      (amount : Nat)
  | DelegatorUnbonded (delegator_id : AccountId) (validator_id : AccountId)
      (amount : Nat)
  deriving Repr, DecidableEq

/-- `types::StakingHistory`: one ledger record. -/
structure StakingHistory where
  staking_fact : StakingFact
  block_height : Nat
  timestamp : Nat
  index : Nat
  deriving Repr, DecidableEq

/-- `staking.rs`: the append-only staking ledger. -/
structure StakingHistories where
  histories : List (Nat × StakingHistory)
  start_index : Nat
  end_index : Nat
  deriving Repr, DecidableEq

def StakingHistories.new : StakingHistories :=
  { histories := [], start_index := 0, end_index := 0 }

def StakingHistories.get (sh : StakingHistories) (index : Nat) : Option StakingHistory :=
  alist_get sh.histories index

/-- `StakingHistories::index_range`. -/
def StakingHistories.index_range (sh : StakingHistories) : Nat × Nat :=
  (sh.start_index, sh.end_index)

/-- `StakingHistories::append`: the assigned index is 0 when key 0 is absent,
`end_index + 1` otherwise; the record is stamped with the current block
height and timestamp, stored, and read back. -/
def StakingHistories.append (sh : StakingHistories) (env : Env)
    (staking_fact : StakingFact) : StakingHistories × StakingHistory :=
  let index := if alist_contains sh.histories 0 then sh.end_index + 1 else 0
  let record : StakingHistory :=
    { staking_fact := staking_fact
      block_height := env.block_height
      timestamp := env.block_timestamp
      index := index }
  ({ sh with histories := alist_insert sh.histories index record
             end_index := index },
   record)

/-- Repeated `append`, collecting the returned records. -/
def appendAll : StakingHistories → List (Env × StakingFact) →
    StakingHistories × List StakingHistory
  | sh, [] => (sh, [])
  | sh, (e, f) :: t =>
    let p := sh.append e f
    let q := appendAll p.1 t
    (q.1, p.2 :: q.2)

/-- `validator_set.rs`: `Validator`. -/
structure Validator where
  validator_id : AccountId
  validator_id_in_appchain : AccountIdInAppchain
  registered_block_height : Nat
  registered_timestamp : Nat
  deposit_amount : Nat
  total_stake : Nat
  can_be_delegated_to : Bool
  deriving Repr, DecidableEq

/-- `validator_set.rs`: `Delegator`, keyed by the (delegator, validator) pair. -/
structure Delegator where
  delegator_id : AccountId
  validator_id : AccountId
  registered_block_height : Nat
  registered_timestamp : Nat
  deposit_amount : Nat
  deriving Repr, DecidableEq

/-- `validator_set.rs`: `ValidatorSet`, the live mutable snapshot. -/
structure ValidatorSet where
  era_number : Nat
  validator_id_set : List AccountId
  validator_id_to_delegator_id_set : List (AccountId × List AccountId)
  delegator_id_to_validator_id_set : List (AccountId × List AccountId)
  validators : List (AccountId × Validator)
  delegators : List ((AccountId × AccountId) × Delegator)
  total_stake : Nat
  deriving Repr, DecidableEq

/-- `ValidatorSet::new`: all collections empty, zero total stake. -/
def ValidatorSet.new (era_number : Nat) : ValidatorSet :=
  { era_number := era_number
    validator_id_set := []
    validator_id_to_delegator_id_set := []
    delegator_id_to_validator_id_set := []
    validators := []
    delegators := []
    total_stake := 0 }

/-- Body of the `for_each` in the `ValidatorUnbonded` arm of
`apply_staking_history`: removes one delegator of the unbonding validator
from the delegator table and from the delegator-to-validators map, pruning
that map entry when its set becomes empty. -/
def removeDelegatorOfUnbondedValidator (validator_id : AccountId)
    (s : ValidatorSet) (delegator_id : AccountId) : ValidatorSet :=
  let s₁ := { s with delegators := alist_remove s.delegators (delegator_id, validator_id) }
  match alist_get s₁.delegator_id_to_validator_id_set delegator_id with
  | some validator_id_set =>
      let validator_id_set' := uset_remove validator_id_set validator_id
      if validator_id_set'.length > 0 then
        { s₁ with delegator_id_to_validator_id_set :=
            alist_insert s₁.delegator_id_to_validator_id_set delegator_id validator_id_set' }
      else
        { s₁ with delegator_id_to_validator_id_set :=
            alist_remove s₁.delegator_id_to_validator_id_set delegator_id }
  | none => s₁

/-- `ValidatorSet::apply_staking_history` (`validator_set.rs`): folds one
staking fact into the snapshot.  `none` models a panic (a failed `unwrap`
or a checked-arithmetic abort), which rolls the whole call back. -/
def ValidatorSet.apply_staking_history (s : ValidatorSet) (env : Env)
    (staking_history : StakingHistory) : Option ValidatorSet :=
  match staking_history.staking_fact with
  | .ValidatorRegistered validator_id validator_id_in_appchain amount can_be_delegated_to => do
      let total ← checkedAdd U128_BOUND s.total_stake amount
      some { s with
        validator_id_set := uset_insert s.validator_id_set validator_id
        validators := alist_insert s.validators validator_id
          { validator_id := validator_id
            validator_id_in_appchain := validator_id_in_appchain
            registered_block_height := env.block_height
            registered_timestamp := env.block_timestamp
            deposit_amount := amount
            total_stake := amount
            can_be_delegated_to := can_be_delegated_to }
        total_stake := total }
  | .StakeIncreased validator_id amount => do
      let validator ← alist_get s.validators validator_id
      let deposit ← checkedAdd U128_BOUND validator.deposit_amount amount
      let vtotal ← checkedAdd U128_BOUND validator.total_stake amount
      let total ← checkedAdd U128_BOUND s.total_stake amount
      some { s with
        validators := alist_insert s.validators validator_id
          { validator with deposit_amount := deposit, total_stake := vtotal }
        total_stake := total }
  | .StakeDecreased validator_id amount => do
      let validator ← alist_get s.validators validator_id
      let deposit ← checkedSub validator.deposit_amount amount
      let vtotal ← checkedSub validator.total_stake amount
      let total ← checkedSub s.total_stake amount
      some { s with
        validators := alist_insert s.validators validator_id
          { validator with deposit_amount := deposit, total_stake := vtotal }
        total_stake := total }
  | .ValidatorUnbonded validator_id _ => do
      let s₁ :=
        match alist_get s.validator_id_to_delegator_id_set validator_id with
        | some delegator_id_set =>
            let s₂ := delegator_id_set.foldl
              (removeDelegatorOfUnbondedValidator validator_id) s
            { s₂ with validator_id_to_delegator_id_set :=
                alist_remove s₂.validator_id_to_delegator_id_set validator_id }
        | none => s
      let validator ← alist_get s₁.validators validator_id
      let total ← checkedSub s₁.total_stake validator.total_stake
      some { s₁ with
        validators := alist_remove s₁.validators validator_id
        total_stake := total
        validator_id_set := uset_remove s₁.validator_id_set validator_id }
  | .ValidatorDelegationEnabled validator_id => do
      let validator ← alist_get s.validators validator_id
      some { s with validators :=
        alist_insert s.validators validator_id { validator with can_be_delegated_to := true } }
  | .ValidatorDelegationDisabled validator_id => do
      let validator ← alist_get s.validators validator_id
      some { s with validators :=
        alist_insert s.validators validator_id { validator with can_be_delegated_to := false } }
  | .DelegatorRegistered delegator_id validator_id amount => do
      let delegators' := alist_insert s.delegators (delegator_id, validator_id)
        { delegator_id := delegator_id
          validator_id := validator_id
          registered_block_height := env.block_height
          registered_timestamp := env.block_timestamp
          deposit_amount := amount }
      let v2d₀ :=
        if alist_contains s.validator_id_to_delegator_id_set validator_id then
          s.validator_id_to_delegator_id_set
        else
          alist_insert s.validator_id_to_delegator_id_set validator_id []
      let delegator_id_set ← alist_get v2d₀ validator_id
      let v2d₁ := alist_insert v2d₀ validator_id (uset_insert delegator_id_set delegator_id)
      let d2v₀ :=
        if alist_contains s.delegator_id_to_validator_id_set delegator_id then
          s.delegator_id_to_validator_id_set
        else
          alist_insert s.delegator_id_to_validator_id_set delegator_id []
      let validator_id_set ← alist_get d2v₀ delegator_id
      let d2v₁ := alist_insert d2v₀ delegator_id (uset_insert validator_id_set validator_id)
      let validator ← alist_get s.validators validator_id
      let vtotal ← checkedAdd U128_BOUND validator.total_stake amount
      let total ← checkedAdd U128_BOUND s.total_stake amount
      some { s with
        delegators := delegators'
        validator_id_to_delegator_id_set := v2d₁
        delegator_id_to_validator_id_set := d2v₁
        validators := alist_insert s.validators validator_id
          { validator with total_stake := vtotal }
        total_stake := total }
  | .DelegationIncreased delegator_id validator_id amount => do
      let delegator ← alist_get s.delegators (delegator_id, validator_id)
      let ddep ← checkedAdd U128_BOUND delegator.deposit_amount amount
      let validator ← alist_get s.validators validator_id
      let vtotal ← checkedAdd U128_BOUND validator.total_stake amount
      let total ← checkedAdd U128_BOUND s.total_stake amount
      some { s with
        delegators := alist_insert s.delegators (delegator_id, validator_id)
          { delegator with deposit_amount := ddep }
        validators := alist_insert s.validators validator_id
          { validator with total_stake := vtotal }
        total_stake := total }
  | .DelegationDecreased delegator_id validator_id amount => do
      let delegator ← alist_get s.delegators (delegator_id, validator_id)
      let ddep ← checkedSub delegator.deposit_amount amount
      let validator ← alist_get s.validators validator_id
      let vtotal ← checkedSub validator.total_stake amount
      let total ← checkedSub s.total_stake amount
      some { s with
        delegators := alist_insert s.delegators (delegator_id, validator_id)
          { delegator with deposit_amount := ddep }
        validators := alist_insert s.validators validator_id
          { validator with total_stake := vtotal }
        total_stake := total }
  | .DelegatorUnbonded delegator_id validator_id _ => do
      let delegator_id_set ← alist_get s.validator_id_to_delegator_id_set validator_id
      let delegator_id_set' := uset_remove delegator_id_set delegator_id
      let v2d₁ :=
        if delegator_id_set'.length > 0 then
          alist_insert s.validator_id_to_delegator_id_set validator_id delegator_id_set'
        else
          alist_remove s.validator_id_to_delegator_id_set validator_id
      let validator_id_set ← alist_get s.delegator_id_to_validator_id_set delegator_id
      let validator_id_set' := uset_remove validator_id_set validator_id
      let d2v₁ :=
        if validator_id_set'.length > 0 then
          alist_insert s.delegator_id_to_validator_id_set delegator_id validator_id_set'
        else
          alist_remove s.delegator_id_to_validator_id_set delegator_id
      let delegator ← alist_get s.delegators (delegator_id, validator_id)
      let validator ← alist_get s.validators validator_id
      let vtotal ← checkedSub validator.total_stake delegator.deposit_amount
      let total ← checkedSub s.total_stake delegator.deposit_amount
      some { s with
        validator_id_to_delegator_id_set := v2d₁
        delegator_id_to_validator_id_set := d2v₁
        delegators := alist_remove s.delegators (delegator_id, validator_id)
        validators := alist_insert s.validators validator_id
          { validator with total_stake := vtotal }
        total_stake := total }

/-- `validator_set.rs`: `ValidatorSetOfEra`, restricted to the sealed era
metadata the verified operations read (`withdraw_stake` only reads
`start_timestamp`); the era processing machinery is not needed by any claim. -/
structure ValidatorSetOfEra where
  start_block_height : Nat
  start_timestamp : Nat
  staking_history_index : Nat
  deriving Repr, DecidableEq

/-- `validator_set.rs`: `ValidatorSetHistories`. -/
structure ValidatorSetHistories where
  histories : List (Nat × ValidatorSetOfEra)
  start_index : Nat
  end_index : Nat
  deriving Repr, DecidableEq

def ValidatorSetHistories.index_range (h : ValidatorSetHistories) : Nat × Nat :=
  (h.start_index, h.end_index)

def ValidatorSetHistories.get (h : ValidatorSetHistories) (index : Nat) :
    Option ValidatorSetOfEra :=
  alist_get h.histories index

/-- Modelled from the spec: `OCT_DECIMALS_VALUE`, the crate-root base unit
(10^18) used by the default protocol settings. -/
def OCT_DECIMALS_VALUE : Nat := 10 ^ 18

/-- `types::ProtocolSettings`, restricted to the fields the verified
operations read. -/
structure ProtocolSettings where
  minimum_validator_deposit : Nat
  minimum_delegator_deposit : Nat
  maximum_validators_per_delegator : Nat
  unlock_period_of_validator_deposit : Nat
  unlock_period_of_delegator_deposit : Nat
  maximum_era_count_of_unwithdrawn_reward : Nat
  deriving Repr, DecidableEq

/-- `settings_manager.rs`: `impl Default for ProtocolSettings`. -/
def ProtocolSettings.default : ProtocolSettings :=
  { minimum_validator_deposit := 10000 * OCT_DECIMALS_VALUE
    minimum_delegator_deposit := 1000 * OCT_DECIMALS_VALUE
    maximum_validators_per_delegator := 16
    unlock_period_of_validator_deposit := 21
    unlock_period_of_delegator_deposit := 7
    maximum_era_count_of_unwithdrawn_reward := 84 }

/-- `staking.rs`: `UnbondedStakeReference`. -/
structure UnbondedStakeReference where
  era_number : Nat
  staking_history_index : Nat
  deriving Repr, DecidableEq

/-- The contract state (`AppchainAnchor`), restricted to the fields the
verified operations touch.  The `LookupMap`/`LazyOption` containers are
inlined as plain values; `LazyOption::set` is the corresponding field
update. -/
structure AppchainAnchor where
  next_validator_set : ValidatorSet
  staking_histories : StakingHistories
  validator_set_histories : ValidatorSetHistories
  unbonded_stakes : List (AccountId × List UnbondedStakeReference)
  protocol_settings : ProtocolSettings
  unwithdrawn_validator_rewards : List ((Nat × AccountId) × Nat)
  unwithdrawn_delegator_rewards : List ((Nat × AccountId × AccountId) × Nat)
  deriving Repr, DecidableEq

/-- `assert!`: `none` (panic, rolling back the call) when the condition is
false. -/
def assertB (b : Bool) : Option Unit :=
  if b then some () else none

/-- Modelled from the spec: `assert_validator_id` (defined outside `src/`)
panics unless the account is a validator of the given set. -/
def assert_validator_id (vset : ValidatorSet) (account_id : AccountId) : Bool :=
  account_id ∈ vset.validator_id_set

/-- Modelled from the spec: `assert_delegator_id` (defined outside `src/`)
panics unless the account is a delegator of the given validator in the set. -/
def assert_delegator_id (vset : ValidatorSet) (delegator_id validator_id : AccountId) : Bool :=
  alist_contains vset.delegators (delegator_id, validator_id)

/-- `staking.rs`: `record_staking_fact`: appends the fact to the ledger,
persists the ledger, applies the new record to the next validator set,
persists the set, and returns the new record's index. -/
def record_staking_fact (anchor : AppchainAnchor) (env : Env)
    (staking_fact : StakingFact) (next_validator_set : ValidatorSet) :
    Option (AppchainAnchor × Nat) := do
  let p := anchor.staking_histories.append env staking_fact
  let next' ← next_validator_set.apply_staking_history env p.2
  some ({ anchor with staking_histories := p.1, next_validator_set := next' }, p.2.index)

/-- The `UnbondedStakeReference` each decrease/unbond action constructs:
era number = validator-set history end index + 1, plus the index of the
staking fact just appended. -/
def newUnbondedStakeReference (anchor : AppchainAnchor) (index : Nat) :
    UnbondedStakeReference :=
  { era_number := anchor.validator_set_histories.index_range.2 + 1
    staking_history_index := index }

/-- `staking.rs`: `StakingManager::decrease_stake`.  The trailing local
`unbond_stakes` vector mirrors the source exactly: it is obtained from
`LookupMap::get` (which returns a detached copy), the new
`UnbondedStakeReference` is pushed onto it, and it is never inserted back
into `unbonded_stakes`, so the push does not survive the call. -/
def decrease_stake (anchor : AppchainAnchor) (env : Env) (validator_id : AccountId)
    (amount : Nat) : Option AppchainAnchor := do
  let next_validator_set := anchor.next_validator_set
  _ ← assertB (assert_validator_id next_validator_set validator_id)
  let protocol_settings := anchor.protocol_settings
  let validator ← alist_get next_validator_set.validators validator_id
  let remaining ← checkedSub validator.deposit_amount amount
  _ ← assertB (remaining ≥ protocol_settings.minimum_validator_deposit)
  let r ← record_staking_fact anchor env (.StakeDecreased validator_id amount)
    next_validator_set
  let unbond_stakes :=
    match alist_get r.1.unbonded_stakes validator_id with
    | some refs => refs
    | none => []
  let _pushed := unbond_stakes ++ [newUnbondedStakeReference r.1 r.2]
  some r.1

/-- `staking.rs`: `StakingManager::unbond_stake`; as in `decrease_stake`,
the pushed `UnbondedStakeReference` is never written back to the map. -/
def unbond_stake (anchor : AppchainAnchor) (env : Env) (validator_id : AccountId) :
    Option AppchainAnchor := do
  let next_validator_set := anchor.next_validator_set
  _ ← assertB (assert_validator_id next_validator_set validator_id)
  let validator ← alist_get next_validator_set.validators validator_id
  let r ← record_staking_fact anchor env
    (.ValidatorUnbonded validator_id validator.deposit_amount) next_validator_set
  let unbond_stakes :=
    match alist_get r.1.unbonded_stakes validator_id with
    | some refs => refs
    | none => []
  let _pushed := unbond_stakes ++ [newUnbondedStakeReference r.1 r.2]
  some r.1

/-- `staking.rs`: `StakingManager::decrease_delegation`; as in
`decrease_stake`, the pushed reference is never written back to the map. -/
def decrease_delegation (anchor : AppchainAnchor) (env : Env)
    (delegator_id validator_id : AccountId) (amount : Nat) : Option AppchainAnchor := do
  let next_validator_set := anchor.next_validator_set
  _ ← assertB (assert_delegator_id next_validator_set delegator_id validator_id)
  let protocol_settings := anchor.protocol_settings
  let delegator ← alist_get next_validator_set.delegators (delegator_id, validator_id)
  let remaining ← checkedSub delegator.deposit_amount amount
  _ ← assertB (remaining ≥ protocol_settings.minimum_delegator_deposit)
  let r ← record_staking_fact anchor env
    (.DelegationDecreased delegator_id validator_id amount) next_validator_set
  let unbond_stakes :=
    match alist_get r.1.unbonded_stakes delegator_id with
    | some refs => refs
    | none => []
  let _pushed := unbond_stakes ++ [newUnbondedStakeReference r.1 r.2]
  some r.1

/-- `staking.rs`: `StakingManager::unbond_delegation`; as in
`decrease_stake`, the pushed reference is never written back to the map. -/
def unbond_delegation (anchor : AppchainAnchor) (env : Env)
    (delegator_id validator_id : AccountId) : Option AppchainAnchor := do
  let next_validator_set := anchor.next_validator_set
  _ ← assertB (assert_delegator_id next_validator_set delegator_id validator_id)
  let delegator ← alist_get next_validator_set.delegators (delegator_id, validator_id)
  let r ← record_staking_fact anchor env
    (.DelegatorUnbonded delegator_id validator_id delegator.deposit_amount)
    next_validator_set
  let unbond_stakes :=
    match alist_get r.1.unbonded_stakes delegator_id with
    | some refs => refs
    | none => []
  let _pushed := unbond_stakes ++ [newUnbondedStakeReference r.1 r.2]
  some r.1

/-- Body of the per-reference loop of `withdraw_stake`: looks up the
referenced era and staking fact, then either adds the fact's amount to the
withdrawable balance or retains the reference, following the source's
comparison `start_timestamp + unlock_period > block_timestamp` verbatim. -/
def withdraw_stake_step (anchor : AppchainAnchor) (env : Env)
    (acc : Nat × List UnbondedStakeReference) (reference : UnbondedStakeReference) :
    Option (Nat × List UnbondedStakeReference) := do
  let protocol_settings := anchor.protocol_settings
  let validator_set ← anchor.validator_set_histories.get reference.era_number
  let staking_history ← anchor.staking_histories.get reference.staking_history_index
  match staking_history.staking_fact with
  | .StakeDecreased _ amount =>
      if validator_set.start_timestamp +
          protocol_settings.unlock_period_of_validator_deposit *
            SECONDS_OF_A_DAY * NANO_SECONDS_MULTIPLE > env.block_timestamp then do
        let w ← checkedAdd U128_BOUND acc.1 amount
        some (w, acc.2)
      else
        some (acc.1, acc.2 ++ [reference])
  | .ValidatorUnbonded _ amount =>
      if validator_set.start_timestamp +
          protocol_settings.unlock_period_of_validator_deposit *
            SECONDS_OF_A_DAY * NANO_SECONDS_MULTIPLE > env.block_timestamp then do
        let w ← checkedAdd U128_BOUND acc.1 amount
        some (w, acc.2)
      else
        some (acc.1, acc.2 ++ [reference])
  | .DelegationDecreased _ _ amount =>
      if validator_set.start_timestamp +
          protocol_settings.unlock_period_of_delegator_deposit *
            SECONDS_OF_A_DAY * NANO_SECONDS_MULTIPLE > env.block_timestamp then do
        let w ← checkedAdd U128_BOUND acc.1 amount
        some (w, acc.2)
      else
        some (acc.1, acc.2 ++ [reference])
  | .DelegatorUnbonded _ _ amount =>
      if validator_set.start_timestamp +
          protocol_settings.unlock_period_of_delegator_deposit *
            SECONDS_OF_A_DAY * NANO_SECONDS_MULTIPLE > env.block_timestamp then do
        let w ← checkedAdd U128_BOUND acc.1 amount
        some (w, acc.2)
      else
        some (acc.1, acc.2 ++ [reference])
  | _ => some acc

/-- `staking.rs`: `StakingManager::withdraw_stake`.  Returns the updated
state and the balance handed to the (external) `ft_transfer`; when the
account holds no references the state is untouched and nothing is paid. -/
def withdraw_stake (anchor : AppchainAnchor) (env : Env) (account_id : AccountId) :
    Option (AppchainAnchor × Nat) :=
  match alist_get anchor.unbonded_stakes account_id with
  | none => some (anchor, 0)
  | some unbonded_stake_references => do
      let acc ← unbonded_stake_references.foldlM (withdraw_stake_step anchor env) (0, [])
      let anchor' :=
        if acc.2.length > 0 then
          { anchor with unbonded_stakes :=
              alist_insert anchor.unbonded_stakes account_id acc.2 }
        else
          { anchor with unbonded_stakes :=
              alist_remove anchor.unbonded_stakes account_id }
      some (anchor', acc.1)

/-- Body of the per-era loop of `withdraw_validator_rewards`: collects and
clears the unwithdrawn reward of one era, if any. -/
def withdraw_validator_reward_step (validator_id : AccountId)
    (acc : List ((Nat × AccountId) × Nat) × Nat) (era_number : Nat) :
    Option (List ((Nat × AccountId) × Nat) × Nat) :=
  match alist_get acc.1 (era_number, validator_id) with
  | some reward => do
      let total ← checkedAdd U128_BOUND acc.2 reward
      some (alist_remove acc.1 (era_number, validator_id), total)
  | none => some acc

/-- `staking.rs`: `StakingManager::withdraw_validator_rewards`.  The
retention-window start is the unguarded `u64` subtraction
`end_era - maximum_era_count_of_unwithdrawn_reward`. -/
def withdraw_validator_rewards (anchor : AppchainAnchor) (validator_id : AccountId) :
    Option (AppchainAnchor × Nat) := do
  let end_era := anchor.validator_set_histories.index_range.2
  let protocol_settings := anchor.protocol_settings
  let start_era ← checkedSub end_era
    protocol_settings.maximum_era_count_of_unwithdrawn_reward
  let eras := (List.range (end_era - start_era)).map (fun i => start_era + i)
  let result ← eras.foldlM (withdraw_validator_reward_step validator_id)
    (anchor.unwithdrawn_validator_rewards, 0)
  some ({ anchor with unwithdrawn_validator_rewards := result.1 }, result.2)

/-- Body of the per-era loop of `withdraw_delegator_rewards`. -/
def withdraw_delegator_reward_step (delegator_id validator_id : AccountId)
    (acc : List ((Nat × AccountId × AccountId) × Nat) × Nat) (era_number : Nat) :
    Option (List ((Nat × AccountId × AccountId) × Nat) × Nat) :=
  match alist_get acc.1 (era_number, delegator_id, validator_id) with
  | some reward => do
      let total ← checkedAdd U128_BOUND acc.2 reward
      some (alist_remove acc.1 (era_number, delegator_id, validator_id), total)
  | none => some acc

/-- `staking.rs`: `StakingManager::withdraw_delegator_rewards`, with the
same unguarded `u64` window-start subtraction. -/
def withdraw_delegator_rewards (anchor : AppchainAnchor)
    (delegator_id validator_id : AccountId) : Option (AppchainAnchor × Nat) := do
  let end_era := anchor.validator_set_histories.index_range.2
  let protocol_settings := anchor.protocol_settings
  let start_era ← checkedSub end_era
    protocol_settings.maximum_era_count_of_unwithdrawn_reward
  let eras := (List.range (end_era - start_era)).map (fun i => start_era + i)
  let result ← eras.foldlM (withdraw_delegator_reward_step delegator_id validator_id)
    (anchor.unwithdrawn_delegator_rewards, 0)
  some ({ anchor with unwithdrawn_delegator_rewards := result.1 }, result.2)

/-- `message_decoder.rs`: `PayloadType` (SCALE enum, variant indices in
declaration order: Lock = 0, BurnAsset = 1, PlanNewEra = 2, EraPayout = 3). -/
inductive PayloadType
  | Lock
  | BurnAsset
  | PlanNewEra
  | EraPayout
  deriving Repr, DecidableEq

/-!
Payload structs of `message_decoder.rs`.  String fields (`String`,
`AccountId`) are modelled by their UTF-8 byte content as `List Nat`;
borsh's UTF-8 validity check is not modelled, which only enlarges the set
of accepted payloads and is irrelevant to every claim below.
-/

/-- `message_decoder.rs`: `BurnAssetPayload`. -/
structure BurnAssetPayload where
  symbol : List Nat
  owner_id_in_appchain : List Nat
  receiver_id_in_near : List Nat
  amount : Nat
  deriving Repr, DecidableEq

/-- `message_decoder.rs`: `LockPayload`. -/
structure LockPayload where
  owner_id_in_appchain : List Nat
  receiver_id_in_near : List Nat
  amount : Nat
  deriving Repr, DecidableEq

/-- `message_decoder.rs`: `PlanNewEraPayload`. -/
structure PlanNewEraPayload where
  new_planned_era : Nat
  deriving Repr, DecidableEq

/-- `message_decoder.rs`: `EraPayoutPayload`. -/
structure EraPayoutPayload where
  era : Nat
  payout : Nat
  exclude : List (List Nat)
  deriving Repr, DecidableEq

/-- `types::AppchainEvent`.  The variants carry exactly the fields named at
the construction sites in `message_decoder.rs` (Rust struct-variant
literals name every field, so the decoder source fixes these shapes);
note `EraRewardConcluded` has no payout field. -/
inductive AppchainEvent
  | NearFungibleTokenBurnt (symbol : List Nat) (owner_id_in_appchain : List Nat)
      (receiver_id_in_near : List Nat) (amount : Nat)
  | NativeTokenLocked (owner_id_in_appchain : List Nat)
      (receiver_id_in_near : List Nat) (amount : Nat)
  | EraSwitchPlaned (era_number : Nat)
  | EraRewardConcluded (era_number : Nat)
      (unprofitable_validator_ids : List (List Nat))
  deriving Repr, DecidableEq

/-- `message_decoder.rs`: `AppchainMessage` (`nonce` is `u32`). -/
structure AppchainMessage where
  appchain_event : AppchainEvent
  nonce : Nat
  deriving Repr, DecidableEq

/-- `message_decoder.rs`: `RawMessage` (`nonce` is `u64`, `payload` opaque
bytes). -/
structure RawMessage where
  nonce : Nat
  payload_type : PayloadType
  payload : List Nat
  deriving Repr, DecidableEq

/-- Value of a little-endian byte list. -/
def fromLE : List Nat → Nat
  | [] => 0
  | b :: t => b + 256 * fromLE t

/-- The `w` little-endian bytes of `n`. -/
def leBytes : Nat → Nat → List Nat
  | 0, _ => []
  | w + 1, n => (n % 256) :: leBytes w (n / 256)

/-- Reads exactly `n` bytes, returning them and the remaining input. -/
def readBytes (n : Nat) (input : List Nat) : Option (List Nat × List Nat) :=
  if input.length < n then none else some (input.take n, input.drop n)

/-- Reads a `w`-byte little-endian unsigned integer. -/
def readUIntLE (w : Nat) (input : List Nat) : Option (Nat × List Nat) :=
  (readBytes w input).map (fun p => (fromLE p.1, p.2))

/-- Borsh string: `u32` little-endian byte length, then the bytes. -/
def readString (input : List Nat) : Option (List Nat × List Nat) := do
  let len ← readUIntLE 4 input
  readBytes len.1 len.2

/-- Runs a reader exactly `n` times, collecting the results. -/
def readCount {α : Type} (p : List Nat → Option (α × List Nat)) :
    Nat → List Nat → Option (List α × List Nat)
  | 0, input => some ([], input)
  | n + 1, input => do
      let x ← p input
      let q ← readCount p n x.2
      some (x.1 :: q.1, q.2)

/-- Borsh deserialization of `BurnAssetPayload` (field order as declared);
like the source's `BorshDeserialize::deserialize(&mut &payload[..])`,
trailing bytes after the struct are not rejected. -/
def deserializeBurnAsset (payload : List Nat) : Option BurnAssetPayload := do
  let symbol ← readString payload
  let owner ← readString symbol.2
  let receiver ← readString owner.2
  let amount ← readUIntLE 16 receiver.2
  some { symbol := symbol.1
         owner_id_in_appchain := owner.1
         receiver_id_in_near := receiver.1
         amount := amount.1 }

/-- Borsh deserialization of `LockPayload`. -/
def deserializeLock (payload : List Nat) : Option LockPayload := do
  let owner ← readString payload
  let receiver ← readString owner.2
  let amount ← readUIntLE 16 receiver.2
  some { owner_id_in_appchain := owner.1
         receiver_id_in_near := receiver.1
         amount := amount.1 }

/-- Borsh deserialization of `PlanNewEraPayload`. -/
def deserializePlanNewEra (payload : List Nat) : Option PlanNewEraPayload := do
  let era ← readUIntLE 4 payload
  some { new_planned_era := era.1 }

/-- Borsh deserialization of `EraPayoutPayload` (`era: u32`,
`payout: u128`, `exclude: Vec<String>` as `u32` count plus strings). -/
def deserializeEraPayout (payload : List Nat) : Option EraPayoutPayload := do
  let era ← readUIntLE 4 payload
  let payout ← readUIntLE 16 era.2
  let count ← readUIntLE 4 payout.2
  let exclude ← readCount readString count.1 count.2
  some { era := era.1, payout := payout.1, exclude := exclude.1 }

/-- The per-entry dispatch of `decode`: decodes the payload against the
tag's schema and builds the domain event; the source's `m.nonce as u32`
cast is the truncation `% 2 ^ 32`.  For `EraPayout` the source constructs
`EraRewardConcluded` from `era` and `exclude` only; `payout` is dropped. -/
def decodeRawMessage (m : RawMessage) : Option AppchainMessage :=
  match m.payload_type with
  | .BurnAsset =>
      (deserializeBurnAsset m.payload).map (fun payload =>
        { appchain_event := .NearFungibleTokenBurnt payload.symbol
            payload.owner_id_in_appchain payload.receiver_id_in_near payload.amount
          nonce := m.nonce % 2 ^ 32 })
  | .Lock =>
      (deserializeLock m.payload).map (fun payload =>
        { appchain_event := .NativeTokenLocked payload.owner_id_in_appchain
            payload.receiver_id_in_near payload.amount
          nonce := m.nonce % 2 ^ 32 })
  | .PlanNewEra =>
      (deserializePlanNewEra m.payload).map (fun payload =>
        { appchain_event := .EraSwitchPlaned payload.new_planned_era
          nonce := m.nonce % 2 ^ 32 })
  | .EraPayout =>
      (deserializeEraPayout m.payload).map (fun payload =>
        { appchain_event := .EraRewardConcluded payload.era payload.exclude
          nonce := m.nonce % 2 ^ 32 })

/-- SCALE compact-integer decoding (parity-scale-codec), used for the
envelope count and each payload's byte length. -/
def compactDecode (input : List Nat) : Option (Nat × List Nat) :=
  match input with
  | [] => none
  | b0 :: rest =>
      if b0 % 4 = 0 then some (b0 / 4, rest)
      else if b0 % 4 = 1 then
        match rest with
        | b1 :: r => some ((b0 + 256 * b1) / 4, r)
        | [] => none
      else if b0 % 4 = 2 then do
        let p ← readBytes 3 rest
        some (fromLE (b0 :: p.1) / 4, p.2)
      else do
        let p ← readBytes (b0 / 4 + 4) rest
        some (fromLE p.1, p.2)

/-- SCALE tag byte of `PayloadType` (variant index). -/
def decodeTag (b : Nat) : Option PayloadType :=
  if b = 0 then some PayloadType.Lock
  else if b = 1 then some PayloadType.BurnAsset
  else if b = 2 then some PayloadType.PlanNewEra
  else if b = 3 then some PayloadType.EraPayout
  else none

/-- SCALE decoding of one `RawMessage`: 8-byte little-endian nonce, one
tag byte, then a compact-length-prefixed payload. -/
def readRawMessage (input : List Nat) : Option (RawMessage × List Nat) := do
  let nonce ← readUIntLE 8 input
  match nonce.2 with
  | [] => none
  | tagByte :: r1 => do
      let payload_type ← decodeTag tagByte
      let plen ← compactDecode r1
      let payload ← readBytes plen.1 plen.2
      some ({ nonce := nonce.1, payload_type := payload_type, payload := payload.1 },
            payload.2)

/-- `Decode::decode::<Vec<RawMessage>>`: compact count, then that many
records; like the source's `decode(&mut &encoded_message[..])`, trailing
bytes after the envelope are not rejected. -/
def decodeEnvelope (input : List Nat) : Option (List RawMessage × List Nat) := do
  let count ← compactDecode input
  readCount readRawMessage count.1 count.2

/-- The `iter().map(...).collect()` of `decode`: every entry is decoded in
order; the first panicking entry aborts the whole run (`none`). -/
def traverseDecode : List RawMessage → Option (List AppchainMessage)
  | [] => some []
  | m :: t => do
      let e ← decodeRawMessage m
      let es ← traverseDecode t
      some (e :: es)

/-- `message_decoder.rs`: `ProofDecoder::decode` for `AppchainAnchor`:
decodes the envelope (`unwrap`), then maps every raw entry through the
per-tag payload decoding (`unwrap`).  Any failure panics, aborting the call
with no events produced; `decode` takes `&self` and writes no state, so a
panic leaves all persisted state untouched. -/
def decode (encoded_message : List Nat) : Option (List AppchainMessage) := do
  let p ← decodeEnvelope encoded_message
  traverseDecode p.1

/-!
Wire-format serializers.  Modelled from the spec (§6, bit-exact wire
format): the encoders live on the appchain side, outside this repository;
they are the canonical inverses the round-trip claim quantifies over.
-/

/-- Borsh string encoding: `u32` little-endian length, then the bytes. -/
def serializeString (s : List Nat) : List Nat :=
  leBytes 4 s.length ++ s

/-- Borsh encoding of `LockPayload`. -/
def serializeLock (p : LockPayload) : List Nat :=
  serializeString p.owner_id_in_appchain ++ serializeString p.receiver_id_in_near ++
    leBytes 16 p.amount

/-- Borsh encoding of `BurnAssetPayload`. -/
def serializeBurnAsset (p : BurnAssetPayload) : List Nat :=
  serializeString p.symbol ++ serializeString p.owner_id_in_appchain ++
    serializeString p.receiver_id_in_near ++ leBytes 16 p.amount

/-- Borsh encoding of `PlanNewEraPayload`. -/
def serializePlanNewEra (p : PlanNewEraPayload) : List Nat :=
  leBytes 4 p.new_planned_era

/-- Borsh encoding of `EraPayoutPayload`. -/
def serializeEraPayout (p : EraPayoutPayload) : List Nat :=
  leBytes 4 p.era ++ leBytes 16 p.payout ++ leBytes 4 p.exclude.length ++
    (p.exclude.map serializeString).flatten

/-- SCALE compact-integer encoding (canonical modes). -/
def compactEncode (n : Nat) : List Nat :=
  if n < 64 then [n * 4]
  else if n < 16384 then leBytes 2 (n * 4 + 1)
  else if n < 1073741824 then leBytes 4 (n * 4 + 2)
  else ((Nat.log 256 n + 1 - 4) * 4 + 3) :: leBytes (Nat.log 256 n + 1) n

/-- SCALE tag byte of a `PayloadType` value. -/
def encodeTag : PayloadType → Nat
  | .Lock => 0
  | .BurnAsset => 1
  | .PlanNewEra => 2
  | .EraPayout => 3

/-- SCALE encoding of one `RawMessage`. -/
def serializeRawMessage (m : RawMessage) : List Nat :=
  leBytes 8 m.nonce ++ [encodeTag m.payload_type] ++
    compactEncode m.payload.length ++ m.payload

/-- SCALE encoding of the envelope. -/
def serializeEnvelope (ms : List RawMessage) : List Nat :=
  compactEncode ms.length ++ (ms.map serializeRawMessage).flatten

/-!
Definitions used to state the verified properties.
-/

/-- The keys of an association list are pairwise distinct (always true of a
`LookupMap`). -/
def NodupKeys {K V : Type} (m : List (K × V)) : Prop :=
  (m.map Prod.fst).Nodup

/-- Sum of a projection over all values of an association list. -/
def msum {K V : Type} (f : V → Nat) (m : List (K × V)) : Nat :=
  (m.map (fun p => f p.2)).sum

/-- Total deposit delegated to one validator: the sum of the deposit
amounts of all delegator records keyed with that validator. -/
def delegSum (dl : List ((AccountId × AccountId) × Delegator)) (v : AccountId) : Nat :=
  ((dl.filter (fun p => p.1.2 = v)).map (fun p => p.2.deposit_amount)).sum

/-- Stepwise precondition of applying one staking fact, as the claim lists
them: referenced validators/delegators exist, registrations are not
duplicates, decreases do not underflow the decreased deposit, and the
increased aggregate stays a `u128`. -/
def factPre (s : ValidatorSet) (f : StakingFact) : Bool :=
  match f with
  | .ValidatorRegistered validator_id _ amount _ =>
      !(alist_contains s.validators validator_id) &&
        decide (s.total_stake + amount < U128_BOUND)
  | .StakeIncreased validator_id amount =>
      alist_contains s.validators validator_id &&
        decide (s.total_stake + amount < U128_BOUND)
  | .StakeDecreased validator_id amount =>
      (match alist_get s.validators validator_id with
       | some validator => decide (amount ≤ validator.deposit_amount)
       | none => false)
  | .ValidatorUnbonded validator_id _ =>
      alist_contains s.validators validator_id
  | .ValidatorDelegationEnabled validator_id =>
      alist_contains s.validators validator_id
  | .ValidatorDelegationDisabled validator_id =>
      alist_contains s.validators validator_id
  | .DelegatorRegistered delegator_id validator_id amount =>
      alist_contains s.validators validator_id &&
        !(alist_contains s.delegators (delegator_id, validator_id)) &&
        decide (s.total_stake + amount < U128_BOUND)
  | .DelegationIncreased delegator_id validator_id amount =>
      alist_contains s.delegators (delegator_id, validator_id) &&
        decide (s.total_stake + amount < U128_BOUND)
  | .DelegationDecreased delegator_id validator_id amount =>
      (match alist_get s.delegators (delegator_id, validator_id) with
       | some delegator => decide (amount ≤ delegator.deposit_amount)
       | none => false)
  | .DelegatorUnbonded delegator_id validator_id _ =>
      alist_contains s.delegators (delegator_id, validator_id)

/-- Sequential application of staking history records to a validator set;
`none` as soon as one application panics. -/
def applyFacts (env : Env) : ValidatorSet → List StakingHistory → Option ValidatorSet
  | s, [] => some s
  | s, h :: t =>
    match s.apply_staking_history env h with
    | some s' => applyFacts env s' t
    | none => none

/-- Every step of the sequence satisfies its precondition (evaluated in the
state reached by the previous steps) and applies successfully. -/
def factPresHold (env : Env) : ValidatorSet → List StakingHistory → Bool
  | _, [] => true
  | s, h :: t =>
    factPre s h.staking_fact &&
      (match s.apply_staking_history env h with
       | some s' => factPresHold env s' t
       | none => false)

/-- The two stake equations of the claim: every validator's `total_stake`
is its own deposit plus the deposits delegated to it, and the set's
`total_stake` is the sum over all validators. -/
def stakeInvariantsHold (s : ValidatorSet) : Bool :=
  decide (s.total_stake = msum (fun validator => validator.total_stake) s.validators) &&
    s.validators.all (fun p =>
      decide (p.2.total_stake = p.2.deposit_amount + delegSum s.delegators p.1))

/-- The inductive invariant of `ValidatorSet` maintained by
`apply_staking_history`: the two stake equations plus the bookkeeping facts
(key uniqueness, mutual consistency of the two cross-index maps with the
delegator table, existence of delegated-to validators) needed to push the
equations through every case. -/
structure VSInv (s : ValidatorSet) : Prop where
  nk_validators : NodupKeys s.validators
  nk_delegators : NodupKeys s.delegators
  nk_v2d : NodupKeys s.validator_id_to_delegator_id_set
  nk_d2v : NodupKeys s.delegator_id_to_validator_id_set
  nd_v2d : ∀ v ds, alist_get s.validator_id_to_delegator_id_set v = some ds → ds.Nodup
  nd_d2v : ∀ d vs, alist_get s.delegator_id_to_validator_id_set d = some vs → vs.Nodup
  cons_v2d : ∀ d v, (alist_get s.delegators (d, v)).isSome ↔
      (∃ ds, alist_get s.validator_id_to_delegator_id_set v = some ds ∧ d ∈ ds)
  cons_d2v : ∀ d v, (alist_get s.delegators (d, v)).isSome ↔
      (∃ vs, alist_get s.delegator_id_to_validator_id_set d = some vs ∧ v ∈ vs)
  dv_exists : ∀ d v, (alist_get s.delegators (d, v)).isSome →
      (alist_get s.validators v).isSome
  veq : ∀ v validator, alist_get s.validators v = some validator →
      validator.total_stake = validator.deposit_amount + delegSum s.delegators v
  aggr : s.total_stake = msum (fun validator => validator.total_stake) s.validators

/-- The delegator-to-validators index update performed for one delegator in
the `ValidatorUnbonded` cascade, as a function of the index map alone. -/
def d2vPruneStep (validator_id : AccountId)
    (m : List (AccountId × List AccountId)) (delegator_id : AccountId) :
    List (AccountId × List AccountId) :=
  match alist_get m delegator_id with
  | some validator_id_set =>
      let validator_id_set' := uset_remove validator_id_set validator_id
      if validator_id_set'.length > 0 then
        alist_insert m delegator_id validator_id_set'
      else
        alist_remove m delegator_id
  | none => m

/-- State of the staking ledger after `k` appends to a fresh ledger: key 0
is present exactly when `k ≠ 0`, `end_index` is the last assigned index,
and no index from `k` on is occupied. -/
def ReadyAt (sh : StakingHistories) (k : Nat) : Prop :=
  alist_contains sh.histories 0 = decide (k ≠ 0) ∧
  sh.end_index = k - 1 ∧
  (∀ i, k ≤ i → sh.get i = none)

/-- The delegator list the `ValidatorUnbonded` cascade iterates over: the
validator's entry in the validator-to-delegators index, empty when absent. -/
def dsOf (s : ValidatorSet) (validator_id : AccountId) : List AccountId :=
  match alist_get s.validator_id_to_delegator_id_set validator_id with
  | some ds => ds
  | none => []

/-!
Concrete fixtures used by witness and counterexample theorems.
-/

/-- Protocol settings of the fixtures (small deposits, default periods). -/
def sampleSettings : ProtocolSettings :=
  { minimum_validator_deposit := 100
    minimum_delegator_deposit := 10
    maximum_validators_per_delegator := 16
    unlock_period_of_validator_deposit := 21
    unlock_period_of_delegator_deposit := 7
    maximum_era_count_of_unwithdrawn_reward := 84 }

/-- A registered validator with deposit 200 and no delegators. -/
def sampleValidator : Validator :=
  { validator_id := "alice"
    validator_id_in_appchain := "alice-app"
    registered_block_height := 1
    registered_timestamp := 2
    deposit_amount := 200
    total_stake := 200
    can_be_delegated_to := true }

/-- A validator set holding exactly `sampleValidator`. -/
def sampleValidatorSet : ValidatorSet :=
  { era_number := 0
    validator_id_set := ["alice"]
    validator_id_to_delegator_id_set := []
    delegator_id_to_validator_id_set := []
    validators := [("alice", sampleValidator)]
    delegators := []
    total_stake := 200 }

/-- A contract state with one validator, a sealed era 0, an empty ledger
and no unbonded references. -/
def sampleAnchor : AppchainAnchor :=
  { next_validator_set := sampleValidatorSet
    staking_histories := StakingHistories.new
    validator_set_histories :=
      { histories := [(0, { start_block_height := 0, start_timestamp := 0,
                            staking_history_index := 0 })]
        start_index := 0
        end_index := 0 }
    unbonded_stakes := []
    protocol_settings := sampleSettings
    unwithdrawn_validator_rewards := []
    unwithdrawn_delegator_rewards := [] }

/-- A delegator record of `d1` delegating 10 to validator `v`. -/
def c6Delegator : Delegator :=
  { delegator_id := "d1"
    validator_id := "v"
    registered_block_height := 1
    registered_timestamp := 1
    deposit_amount := 10 }

/-- A validator `v` with deposit 100 and total stake 110. -/
def c6Validator : Validator :=
  { validator_id := "v"
    validator_id_in_appchain := "v-app"
    registered_block_height := 1
    registered_timestamp := 1
    deposit_amount := 100
    total_stake := 110
    can_be_delegated_to := true }

/-- A validator set with validator `v` and its single delegator `d1`. -/
def c6Set : ValidatorSet :=
  { era_number := 0
    validator_id_set := ["v"]
    validator_id_to_delegator_id_set := [("v", ["d1"])]
    delegator_id_to_validator_id_set := [("d1", ["v"])]
    validators := [("v", c6Validator)]
    delegators := [(("d1", "v"), c6Delegator)]
    total_stake := 110 }

/-- A ledger record carrying `ValidatorUnbonded` for `v`. -/
def c6History : StakingHistory :=
  { staking_fact := StakingFact.ValidatorUnbonded "v" 100
    block_height := 2
    timestamp := 2
    index := 0 }

/-- A five-step staking sequence (register, delegate, increase delegation,
unbond the delegation, unbond the validator) used as the C9 witness. -/
def c9Facts : List StakingHistory :=
  [{ staking_fact := StakingFact.ValidatorRegistered "v" "v-app" 100 true,
     block_height := 1, timestamp := 1, index := 0 },
   { staking_fact := StakingFact.DelegatorRegistered "d" "v" 10,
     block_height := 2, timestamp := 2, index := 1 },
   { staking_fact := StakingFact.DelegationIncreased "d" "v" 3,
     block_height := 3, timestamp := 3, index := 2 },
   { staking_fact := StakingFact.DelegatorUnbonded "d" "v" 13,
     block_height := 4, timestamp := 4, index := 3 },
   { staking_fact := StakingFact.ValidatorUnbonded "v" 100,
     block_height := 5, timestamp := 5, index := 4 }]

/-- An unbonded-stake reference to era 0 and ledger index 0. -/
def c1Reference : UnbondedStakeReference :=
  { era_number := 0, staking_history_index := 0 }

/-- A contract state where account `alice` holds one unbonded-stake
reference to a `StakeDecreased` fact of amount 100 recorded in era 0
(era start timestamp 0). -/
def c1Anchor : AppchainAnchor :=
  { next_validator_set := ValidatorSet.new 0
    staking_histories :=
      { histories := [(0, { staking_fact := StakingFact.StakeDecreased "alice" 100,
                            block_height := 1, timestamp := 5, index := 0 })]
        start_index := 0
        end_index := 0 }
    validator_set_histories :=
      { histories := [(0, { start_block_height := 0, start_timestamp := 0,
                            staking_history_index := 0 })]
        start_index := 0
        end_index := 0 }
    unbonded_stakes := [("alice", [c1Reference])]
    protocol_settings := sampleSettings
    unwithdrawn_validator_rewards := []
    unwithdrawn_delegator_rewards := [] }

/-- Three well-formed raw messages used by the decoder witnesses. -/
def c4RawGood : List RawMessage :=
  [{ nonce := 7, payload_type := PayloadType.PlanNewEra,
     payload := serializePlanNewEra { new_planned_era := 3 } },
   { nonce := 8, payload_type := PayloadType.Lock,
     payload := serializeLock
       { owner_id_in_appchain := [97], receiver_id_in_near := [98], amount := 5 } },
   { nonce := 9, payload_type := PayloadType.EraPayout,
     payload := serializeEraPayout { era := 1, payout := 2, exclude := [] } }]

/-- The same batch with the second payload malformed (an empty Lock
payload). -/
def c4RawBad : List RawMessage :=
  [{ nonce := 7, payload_type := PayloadType.PlanNewEra,
     payload := serializePlanNewEra { new_planned_era := 3 } },
   { nonce := 8, payload_type := PayloadType.Lock, payload := [] },
   { nonce := 9, payload_type := PayloadType.EraPayout,
     payload := serializeEraPayout { era := 1, payout := 2, exclude := [] } }]

/-- Wire form of the well-formed batch. -/
def c4GoodBlob : List Nat := serializeEnvelope c4RawGood

/-- Wire form of the batch with one malformed payload. -/
def c4BadBlob : List Nat := serializeEnvelope c4RawBad

/-!
Lemmas about the container model.
-/

@[simp]
theorem alist_get_nil {K V : Type} [DecidableEq K] (k : K) :
    alist_get ([] : List (K × V)) k = none := rfl

theorem alist_get_cons {K V : Type} [DecidableEq K] (p : K × V) (t : List (K × V)) (k : K) :
    alist_get (p :: t) k = if p.1 = k then some p.2 else alist_get t k := rfl

@[simp]
theorem alist_get_remove {K V : Type} [DecidableEq K] (m : List (K × V)) (k k' : K) :
    alist_get (alist_remove m k) k' = if k = k' then none else alist_get m k' := by
  induction m with
  | nil => simp [alist_remove]
  | cons p t ih =>
      simp only [alist_remove]
      by_cases h1 : p.1 = k <;> by_cases h2 : k = k' <;>
        simp_all [alist_get_cons]

@[simp]
theorem alist_get_insert {K V : Type} [DecidableEq K] (m : List (K × V)) (k k' : K) (v : V) :
    alist_get (alist_insert m k v) k' = if k = k' then some v else alist_get m k' := by
  by_cases h : k = k' <;> simp [alist_insert, alist_get_cons, h]

theorem alist_remove_of_get_none {K V : Type} [DecidableEq K] {m : List (K × V)} {k : K}
    (h : alist_get m k = none) : alist_remove m k = m := by
  induction m with
  | nil => rfl
  | cons p t ih =>
      by_cases h1 : p.1 = k
      · simp [alist_get_cons, h1] at h
      · simp only [alist_get_cons, if_neg h1] at h
        simp [alist_remove, h1, ih h]

theorem alist_get_isSome_iff {K V : Type} [DecidableEq K] (m : List (K × V)) (k : K) :
    (alist_get m k).isSome ↔ k ∈ m.map Prod.fst := by
  induction m with
  | nil => simp
  | cons p t ih =>
      rw [List.map_cons, List.mem_cons, alist_get_cons]
      by_cases h1 : p.1 = k
      · simp [h1]
      · have h2 : ¬k = p.1 := fun e => h1 e.symm
        simp [h1, h2, ih]

theorem alist_get_of_mem {K V : Type} [DecidableEq K] {m : List (K × V)} {k : K} {v : V}
    (hnd : NodupKeys m) (h : (k, v) ∈ m) : alist_get m k = some v := by
  induction m with
  | nil => simp at h
  | cons p t ih =>
      rcases List.mem_cons.mp h with h | h
      · subst h; simp [alist_get_cons]
      · have hk : k ∈ t.map Prod.fst := List.mem_map.mpr ⟨(k, v), h, rfl⟩
        have hp : p.1 ≠ k := by
          intro hpk
          exact (List.nodup_cons.mp hnd).1 (hpk ▸ hk)
        rw [alist_get_cons, if_neg hp]
        exact ih (List.nodup_cons.mp hnd).2 h

theorem mem_of_alist_get {K V : Type} [DecidableEq K] {m : List (K × V)} {k : K} {v : V}
    (h : alist_get m k = some v) : (k, v) ∈ m := by
  induction m with
  | nil => simp at h
  | cons p t ih =>
      by_cases h1 : p.1 = k
      · rw [alist_get_cons, if_pos h1] at h
        have hp : p = (k, v) := by
          rcases p with ⟨pk, pv⟩
          simp only [Option.some.injEq] at h
          simp_all
        exact List.mem_cons.mpr (Or.inl hp.symm)
      · rw [alist_get_cons, if_neg h1] at h
        exact List.mem_cons.mpr (Or.inr (ih h))

theorem alist_remove_sublist {K V : Type} [DecidableEq K] (m : List (K × V)) (k : K) :
    List.Sublist (alist_remove m k) m := by
  induction m with
  | nil => simp [alist_remove]
  | cons p t ih =>
      by_cases h1 : p.1 = k
      · simp only [alist_remove, if_pos h1]
        exact ih.cons p
      · simp only [alist_remove, if_neg h1]
        exact ih.cons₂ p

theorem nodupKeys_remove {K V : Type} [DecidableEq K] {m : List (K × V)} (k : K)
    (hnd : NodupKeys m) : NodupKeys (alist_remove m k) :=
  List.Nodup.sublist ((alist_remove_sublist m k).map Prod.fst) hnd

theorem nodupKeys_insert {K V : Type} [DecidableEq K] {m : List (K × V)} (k : K) (v : V)
    (hnd : NodupKeys m) : NodupKeys (alist_insert m k v) := by
  have hnr := nodupKeys_remove k hnd
  have hk : k ∉ (alist_remove m k).map Prod.fst := by
    rw [← alist_get_isSome_iff]
    simp
  exact List.nodup_cons.mpr ⟨hk, hnr⟩

theorem msum_cons {K V : Type} (f : V → Nat) (p : K × V) (m : List (K × V)) :
    msum f (p :: m) = f p.2 + msum f m := by
  simp [msum]

theorem msum_insert {K V : Type} [DecidableEq K] (f : V → Nat) (m : List (K × V))
    (k : K) (v : V) :
    msum f (alist_insert m k v) = f v + msum f (alist_remove m k) := by
  simp [alist_insert, msum]

theorem msum_remove_add {K V : Type} [DecidableEq K] {f : V → Nat} {m : List (K × V)}
    {k : K} {v : V} (hnd : NodupKeys m) (h : alist_get m k = some v) :
    msum f (alist_remove m k) + f v = msum f m := by
  induction m with
  | nil => simp [alist_get] at h
  | cons p t ih =>
      by_cases h1 : p.1 = k
      · have hv : p.2 = v := by
          have := h
          rw [alist_get_cons, if_pos h1] at this
          exact Option.some.inj this
        have hk : alist_get t k = none := by
          have hmem : k ∉ t.map Prod.fst := h1 ▸ (List.nodup_cons.mp hnd).1
          rcases ho : alist_get t k with _ | w
          · rfl
          · exact absurd ((alist_get_isSome_iff t k).mp (by simp [ho])) hmem
        simp [alist_remove, h1, alist_remove_of_get_none hk, msum_cons, hv,
          Nat.add_comm]
      · have h' : alist_get t k = some v := by
          have := h
          rwa [alist_get_cons, if_neg h1] at this
        have := ih (List.nodup_cons.mp hnd).2 h'
        simp only [alist_remove, if_neg h1, msum_cons]
        omega

theorem le_msum_of_get {K V : Type} [DecidableEq K] {f : V → Nat} {m : List (K × V)}
    {k : K} {v : V} (hnd : NodupKeys m) (h : alist_get m k = some v) :
    f v ≤ msum f m := by
  have := msum_remove_add (f := f) hnd h
  omega

theorem delegSum_cons (p : (AccountId × AccountId) × Delegator)
    (dl : List ((AccountId × AccountId) × Delegator)) (v : AccountId) :
    delegSum (p :: dl) v =
      (if p.1.2 = v then p.2.deposit_amount else 0) + delegSum dl v := by
  by_cases h : p.1.2 = v <;> simp [delegSum, h]

theorem delegSum_remove_ne {dl : List ((AccountId × AccountId) × Delegator)}
    {d v v' : AccountId} (h : v ≠ v') :
    delegSum (alist_remove dl (d, v)) v' = delegSum dl v' := by
  induction dl with
  | nil => rfl
  | cons p t ih =>
      by_cases h1 : p.1 = (d, v)
      · have hp : p.1.2 ≠ v' := by rw [h1]; exact h
        simp [alist_remove, h1, delegSum_cons, hp, ih, h]
      · simp [alist_remove, h1, delegSum_cons, ih]

theorem delegSum_remove_add {dl : List ((AccountId × AccountId) × Delegator)}
    {d v : AccountId} {del : Delegator} (hnd : NodupKeys dl)
    (h : alist_get dl (d, v) = some del) :
    delegSum (alist_remove dl (d, v)) v + del.deposit_amount = delegSum dl v := by
  induction dl with
  | nil => simp [alist_get] at h
  | cons p t ih =>
      by_cases h1 : p.1 = (d, v)
      · have hv : p.2 = del := by
          have := h
          rw [alist_get_cons, if_pos h1] at this
          exact Option.some.inj this
        have hk : alist_get t (d, v) = none := by
          have hmem : (d, v) ∉ t.map Prod.fst := h1 ▸ (List.nodup_cons.mp hnd).1
          rcases ho : alist_get t (d, v) with _ | w
          · rfl
          · exact absurd ((alist_get_isSome_iff t (d, v)).mp (by simp [ho])) hmem
        have hp2 : p.1.2 = v := by rw [h1]
        simp [alist_remove, h1, alist_remove_of_get_none hk, delegSum_cons, hv, hp2,
          Nat.add_comm]
      · have h' : alist_get t (d, v) = some del := by
          have := h
          rwa [alist_get_cons, if_neg h1] at this
        have := ih (List.nodup_cons.mp hnd).2 h'
        simp only [alist_remove, if_neg h1, delegSum_cons]
        omega

theorem delegSum_le {dl : List ((AccountId × AccountId) × Delegator)}
    {d v : AccountId} {del : Delegator} (hnd : NodupKeys dl)
    (h : alist_get dl (d, v) = some del) :
    del.deposit_amount ≤ delegSum dl v := by
  have := delegSum_remove_add hnd h
  omega

theorem delegSum_insert (dl : List ((AccountId × AccountId) × Delegator))
    (d v : AccountId) (del : Delegator) (v' : AccountId) :
    delegSum (alist_insert dl (d, v) del) v' =
      (if v = v' then del.deposit_amount else 0) + delegSum (alist_remove dl (d, v)) v' := by
  simp [alist_insert, delegSum_cons]

theorem delegSum_eq_zero {dl : List ((AccountId × AccountId) × Delegator)}
    {v : AccountId} (h : ∀ d, alist_get dl (d, v) = none) : delegSum dl v = 0 := by
  induction dl with
  | nil => rfl
  | cons p t ih =>
      have hp : p.1.2 ≠ v := by
        intro hv
        have := h p.1.1
        rw [alist_get_cons, if_pos (by rw [← hv])] at this
        exact Option.noConfusion this
      rw [delegSum_cons, if_neg hp, ih, Nat.add_zero]
      intro d
      have := h d
      by_cases h1 : p.1 = (d, v)
      · exact absurd (by rw [h1]) hp
      · rwa [alist_get_cons, if_neg h1] at this

theorem mem_uset_remove {K : Type} [DecidableEq K] {s : List K} {x k : K} :
    x ∈ uset_remove s k ↔ x ∈ s ∧ x ≠ k := by
  simp [uset_remove]

theorem nodup_uset_remove {K : Type} [DecidableEq K] {s : List K} (k : K)
    (h : s.Nodup) : (uset_remove s k).Nodup :=
  h.filter _

theorem mem_uset_insert {K : Type} [DecidableEq K] {s : List K} {x k : K} :
    x ∈ uset_insert s k ↔ x ∈ s ∨ x = k := by
  by_cases h : k ∈ s
  · simp only [uset_insert, if_pos h]
    exact ⟨fun hx => Or.inl hx, fun hx => hx.elim id (fun e => e ▸ h)⟩
  · simp [uset_insert, if_neg h]

theorem nodup_uset_insert {K : Type} [DecidableEq K] {s : List K} (k : K)
    (h : s.Nodup) : (uset_insert s k).Nodup := by
  by_cases hk : k ∈ s
  · simpa [uset_insert, hk] using h
  · simp [uset_insert, hk, List.nodup_append, h]

/-!
The staking ledger: characterization of repeated `append`.
-/

theorem append_index_of_readyAt {sh : StakingHistories} {k : Nat} (h : ReadyAt sh k)
    (env : Env) (f : StakingFact) :
    (sh.append env f).2 =
      { staking_fact := f, block_height := env.block_height
        timestamp := env.block_timestamp, index := k } ∧
    (sh.append env f).1.histories = alist_insert sh.histories k (sh.append env f).2 ∧
    (sh.append env f).1.end_index = k ∧
    (sh.append env f).1.start_index = sh.start_index := by
  obtain ⟨h0, hend, _⟩ := h
  have hidx : (if alist_contains sh.histories 0 then sh.end_index + 1 else 0) = k := by
    by_cases hk : k = 0
    · subst hk; simp at h0; simp [h0]
    · have : alist_contains sh.histories 0 = true := by simp [h0, hk]
      rw [this]
      simp only [if_pos]
      omega
  simp [StakingHistories.append, hidx]

theorem readyAt_append {sh : StakingHistories} {k : Nat} (h : ReadyAt sh k)
    (env : Env) (f : StakingFact) : ReadyAt (sh.append env f).1 (k + 1) := by
  obtain ⟨hrec, hins, hend, _⟩ := append_index_of_readyAt h env f
  obtain ⟨h0, hend', hnone⟩ := h
  refine ⟨?_, by omega, ?_⟩
  · by_cases hk : k = 0
    · subst hk
      simp [alist_contains, hins]
    · have : alist_contains sh.histories 0 = true := by simp [h0, hk]
      simp only [alist_contains, hins, alist_get_insert]
      rw [if_neg (by omega)]
      simp only [alist_contains] at this
      simp [this]
  · intro i hi
    simp only [StakingHistories.get, hins, alist_get_insert]
    rw [if_neg (by omega)]
    exact hnone i (by omega)

theorem get_append_preserved {sh : StakingHistories} {k : Nat} (h : ReadyAt sh k)
    (env : Env) (f : StakingFact) (j : Nat) (hj : j ≠ k) :
    (sh.append env f).1.get j = sh.get j := by
  obtain ⟨_, hins, _, _⟩ := append_index_of_readyAt h env f
  simp only [StakingHistories.get, hins, alist_get_insert]
  rw [if_neg (fun e => hj e.symm)]

theorem appendAll_spec (l : List (Env × StakingFact)) :
    ∀ (sh : StakingHistories) (k : Nat), ReadyAt sh k →
      (appendAll sh l).2.length = l.length ∧
      ReadyAt (appendAll sh l).1 (k + l.length) ∧
      (∀ j, j < k → (appendAll sh l).1.get j = sh.get j) ∧
      (∀ i, i < l.length → ∃ r : StakingHistory,
        (appendAll sh l).2[i]? = some r ∧
        r.index = k + i ∧
        (l[i]?.map Prod.snd) = some r.staking_fact ∧
        (appendAll sh l).1.get (k + i) = some r) := by
  induction l with
  | nil =>
      intro sh k h
      refine ⟨rfl, by simpa using h, fun j _ => rfl, fun i hi => absurd hi (by simp)⟩
  | cons p t ih =>
      intro sh k h
      obtain ⟨hrec, hins, hend, hstart⟩ := append_index_of_readyAt h p.1 p.2
      have hready1 := readyAt_append h p.1 p.2
      obtain ⟨ihlen, ihready, ihpres, ihget⟩ := ih (sh.append p.1 p.2).1 (k + 1) hready1
      have hunfold : appendAll sh (p :: t) =
          ((appendAll (sh.append p.1 p.2).1 t).1,
            (sh.append p.1 p.2).2 :: (appendAll (sh.append p.1 p.2).1 t).2) := by
        rcases p with ⟨e, f⟩
        simp [appendAll]
      refine ⟨?_, ?_, ?_, ?_⟩
      · rw [hunfold]; simp [ihlen]
      · rw [hunfold]
        have : k + 1 + t.length = k + (p :: t).length := by simp; omega
        exact this ▸ ihready
      · intro j hj
        rw [hunfold]
        simp only
        rw [ihpres j (by omega)]
        exact get_append_preserved h p.1 p.2 j (by omega)
      · intro i hi
        rw [hunfold]
        match i with
        | 0 =>
            refine ⟨(sh.append p.1 p.2).2, by simp, by simp [hrec], by simp [hrec], ?_⟩
            rw [Nat.add_zero]
            rw [ihpres k (by omega)]
            simp [StakingHistories.get, hins, hrec]
        | Nat.succ i' =>
            obtain ⟨r, hr1, hr2, hr3, hr4⟩ := ihget i' (by simpa using hi)
            refine ⟨r, by simpa using hr1, by omega, by simpa using hr3, ?_⟩
            have : k + (i' + 1) = k + 1 + i' := by omega
            rw [this]
            exact hr4

/-- C5: for every sequence of N appends to a freshly created
`StakingHistories`, the assigned indices are exactly `0..N-1` in order with
no gaps (`end_index` advances to the last assigned index), each append
stores the fact under its index and returns the stored record, and `get i`
returns that record for every assigned `i`. -/
theorem C5_staking_ledger_append (l : List (Env × StakingFact)) :
    ((appendAll StakingHistories.new l).2.map (fun r => r.index) = List.range l.length) ∧
    ((appendAll StakingHistories.new l).1.end_index = l.length - 1) ∧
    (∀ i, i < l.length → ∃ r : StakingHistory,
      (appendAll StakingHistories.new l).2[i]? = some r ∧
      r.index = i ∧
      (l[i]?.map Prod.snd) = some r.staking_fact ∧
      (appendAll StakingHistories.new l).1.get i = some r) := by
  have hready : ReadyAt StakingHistories.new 0 :=
    ⟨by simp [alist_contains, StakingHistories.new], rfl, fun i _ => rfl⟩
  obtain ⟨hlen, hfinal, _, hget⟩ := appendAll_spec l StakingHistories.new 0 hready
  refine ⟨?_, ?_, ?_⟩
  · apply List.ext_getElem?
    intro i
    by_cases hi : i < l.length
    · obtain ⟨r, hr1, hr2, _, _⟩ := hget i hi
      rw [List.getElem?_map, hr1, List.getElem?_range hi]
      simp [hr2]
    · rw [List.getElem?_map, List.getElem?_eq_none (by omega : _ ≤ i),
        List.getElem?_eq_none (by simpa using hi)]
      rfl
  · have he := hfinal.2.1
    simpa using he
  · intro i hi
    obtain ⟨r, h1, h2, h3, h4⟩ := hget i hi
    exact ⟨r, h1, by simpa using h2, h3, by simpa using h4⟩

/-- Witness for C5: two appends, checked at index 1. -/
theorem C5_staking_ledger_append_witness :
    (1 < ([((⟨1, 2⟩ : Env), StakingFact.StakeIncreased "a" 5),
          ((⟨3, 4⟩ : Env), StakingFact.StakeDecreased "a" 2)] :
            List (Env × StakingFact)).length) ∧
    (∃ r : StakingHistory,
      (appendAll StakingHistories.new
        [((⟨1, 2⟩ : Env), StakingFact.StakeIncreased "a" 5),
         ((⟨3, 4⟩ : Env), StakingFact.StakeDecreased "a" 2)]).2[1]? = some r ∧
      r.index = 1 ∧
      (([((⟨1, 2⟩ : Env), StakingFact.StakeIncreased "a" 5),
         ((⟨3, 4⟩ : Env), StakingFact.StakeDecreased "a" 2)] :
            List (Env × StakingFact))[1]?.map Prod.snd) = some r.staking_fact ∧
      (appendAll StakingHistories.new
        [((⟨1, 2⟩ : Env), StakingFact.StakeIncreased "a" 5),
         ((⟨3, 4⟩ : Env), StakingFact.StakeDecreased "a" 2)]).1.get 1 = some r) :=
  ⟨by decide,
   (C5_staking_ledger_append
      [((⟨1, 2⟩ : Env), StakingFact.StakeIncreased "a" 5),
       ((⟨3, 4⟩ : Env), StakingFact.StakeDecreased "a" 2)]).2.2 1 (by decide)⟩

/-!
Reward-withdrawal window underflow and the decrease-stake guard.
-/

/-- C10: whenever the validator-set history end index is smaller than the
configured `maximum_era_count_of_unwithdrawn_reward`, the window-start
subtraction `end_era - setting` underflows `u64` and both reward
withdrawals abort instead of summing from era 0; the checked subtraction's
error branch is reached exactly under that hypothesis. -/
theorem C10_reward_window_underflow (anchor : AppchainAnchor)
    (validator_id delegator_id : AccountId)
    (h : anchor.validator_set_histories.end_index <
      anchor.protocol_settings.maximum_era_count_of_unwithdrawn_reward) :
    withdraw_validator_rewards anchor validator_id = none ∧
    withdraw_delegator_rewards anchor delegator_id validator_id = none := by
  have hsub : checkedSub anchor.validator_set_histories.index_range.2
      anchor.protocol_settings.maximum_era_count_of_unwithdrawn_reward = none := by
    simp only [checkedSub, ValidatorSetHistories.index_range, ite_eq_right_iff]
    intro hle
    omega
  constructor <;>
    simp [withdraw_validator_rewards, withdraw_delegator_rewards, hsub]

/-- Witness for C10: a state whose era history ends at index 0 with the
default 84-era window. -/
theorem C10_reward_window_underflow_witness :
    (sampleAnchor.validator_set_histories.end_index <
      sampleAnchor.protocol_settings.maximum_era_count_of_unwithdrawn_reward) ∧
    withdraw_validator_rewards sampleAnchor "alice" = none ∧
    withdraw_delegator_rewards sampleAnchor "bob" "alice" = none :=
  ⟨by decide,
   (C10_reward_window_underflow sampleAnchor "alice" "bob" (by decide)).1,
   (C10_reward_window_underflow sampleAnchor "alice" "bob" (by decide)).2⟩

/-- C8: a decrease that would leave the validator's deposit below the
configured minimum — including any amount exceeding the current deposit,
which would underflow the subtraction — makes `decrease_stake` abort
(`none`, the panic that rolls back every persisted field: deposit, total
stakes, aggregate and ledger are all left unchanged), before any mutation. -/
theorem C8_decrease_stake_rejected (anchor : AppchainAnchor) (env : Env)
    (validator_id : AccountId) (amount : Nat) (validator : Validator)
    (hget : alist_get anchor.next_validator_set.validators validator_id = some validator)
    (h : validator.deposit_amount <
      anchor.protocol_settings.minimum_validator_deposit + amount) :
    decrease_stake anchor env validator_id amount = none := by
  rcases hassert : assertB (assert_validator_id anchor.next_validator_set validator_id)
    with _ | u
  · simp [decrease_stake, hassert]
  · by_cases hle : amount ≤ validator.deposit_amount
    · have hsub : checkedSub validator.deposit_amount amount =
          some (validator.deposit_amount - amount) := by
        simp [checkedSub, hle]
      have hfail : assertB (validator.deposit_amount - amount ≥
          anchor.protocol_settings.minimum_validator_deposit) = none := by
        simp only [assertB, ite_eq_right_iff]
        intro hdec
        simp only [decide_eq_true_eq, ge_iff_le] at hdec
        omega
      simp [decrease_stake, hassert, hget, hsub, hfail]
    · have hsub : checkedSub validator.deposit_amount amount = none := by
        simp only [checkedSub, ite_eq_right_iff]
        intro hc
        omega
      simp [decrease_stake, hassert, hget, hsub]

/-- Witness for C8: decreasing 150 from a deposit of 200 with minimum 100
is rejected. -/
theorem C8_decrease_stake_rejected_witness :
    alist_get sampleAnchor.next_validator_set.validators "alice" = some sampleValidator ∧
    sampleValidator.deposit_amount <
      sampleAnchor.protocol_settings.minimum_validator_deposit + 150 ∧
    decrease_stake sampleAnchor ⟨9, 9⟩ "alice" 150 = none :=
  ⟨by decide, by decide,
   C8_decrease_stake_rejected sampleAnchor ⟨9, 9⟩ "alice" 150 sampleValidator
     (by decide) (by decide)⟩

/-!
The unbonded-stake reference is never persisted.
-/

theorem record_staking_fact_unbonded_stakes {anchor : AppchainAnchor} {env : Env}
    {f : StakingFact} {nvs : ValidatorSet} {p : AppchainAnchor × Nat}
    (h : record_staking_fact anchor env f nvs = some p) :
    p.1.unbonded_stakes = anchor.unbonded_stakes := by
  simp only [record_staking_fact, bind, Option.bind_eq_some, Option.some.injEq] at h
  obtain ⟨nvs', happ, hp⟩ := h
  rw [← hp]

/-- C2: refuted on the code — after any of the four decrease/unbond
operations returns, the persisted `unbonded_stakes` collection is exactly
what it was before the call: the freshly built `UnbondedStakeReference`
(whose fields do match era end + 1 and the new ledger index) only ever
lives in a local vector that is never inserted back into the map. -/
theorem C2_unbonded_reference_not_persisted (anchor : AppchainAnchor) (env : Env)
    (delegator_id validator_id : AccountId) (amount : Nat) :
    ((decrease_stake anchor env validator_id amount).map
        (fun a => a.unbonded_stakes)).getD anchor.unbonded_stakes =
      anchor.unbonded_stakes ∧
    ((unbond_stake anchor env validator_id).map
        (fun a => a.unbonded_stakes)).getD anchor.unbonded_stakes =
      anchor.unbonded_stakes ∧
    ((decrease_delegation anchor env delegator_id validator_id amount).map
        (fun a => a.unbonded_stakes)).getD anchor.unbonded_stakes =
      anchor.unbonded_stakes ∧
    ((unbond_delegation anchor env delegator_id validator_id).map
        (fun a => a.unbonded_stakes)).getD anchor.unbonded_stakes =
      anchor.unbonded_stakes := by
  have key1 : ∀ a', decrease_stake anchor env validator_id amount = some a' →
      a'.unbonded_stakes = anchor.unbonded_stakes := by
    intro a' h
    simp only [decrease_stake, bind, Option.bind_eq_some, Option.some.injEq] at h
    obtain ⟨u1, hu1, validator, hv, remaining, hrem, u2, hu2, r, hrec, ha'⟩ := h
    rw [← ha']
    exact record_staking_fact_unbonded_stakes hrec
  have key2 : ∀ a', unbond_stake anchor env validator_id = some a' →
      a'.unbonded_stakes = anchor.unbonded_stakes := by
    intro a' h
    simp only [unbond_stake, bind, Option.bind_eq_some, Option.some.injEq] at h
    obtain ⟨u1, hu1, validator, hv, r, hrec, ha'⟩ := h
    rw [← ha']
    exact record_staking_fact_unbonded_stakes hrec
  have key3 : ∀ a', decrease_delegation anchor env delegator_id validator_id amount =
      some a' → a'.unbonded_stakes = anchor.unbonded_stakes := by
    intro a' h
    simp only [decrease_delegation, bind, Option.bind_eq_some, Option.some.injEq] at h
    obtain ⟨u1, hu1, delegator, hd, remaining, hrem, u2, hu2, r, hrec, ha'⟩ := h
    rw [← ha']
    exact record_staking_fact_unbonded_stakes hrec
  have key4 : ∀ a', unbond_delegation anchor env delegator_id validator_id = some a' →
      a'.unbonded_stakes = anchor.unbonded_stakes := by
    intro a' h
    simp only [unbond_delegation, bind, Option.bind_eq_some, Option.some.injEq] at h
    obtain ⟨u1, hu1, delegator, hd, r, hrec, ha'⟩ := h
    rw [← ha']
    exact record_staking_fact_unbonded_stakes hrec
  refine ⟨?_, ?_, ?_, ?_⟩
  · rcases hd : decrease_stake anchor env validator_id amount with _ | a'
    · simp
    · simp [key1 a' hd]
  · rcases hd : unbond_stake anchor env validator_id with _ | a'
    · simp
    · simp [key2 a' hd]
  · rcases hd : decrease_delegation anchor env delegator_id validator_id amount with _ | a'
    · simp
    · simp [key3 a' hd]
  · rcases hd : unbond_delegation anchor env delegator_id validator_id with _ | a'
    · simp
    · simp [key4 a' hd]

/-- C1: refuted on the code — the unlock comparison of `withdraw_stake` is
inverted.  At era start 0 with a 21-day validator unlock period
(1814400000000000 ns), a call at timestamp 0 (strictly before the unlock
instant) pays out the referenced amount 100 in full and drops the
reference, while a call exactly at the unlock instant pays nothing and
retains the reference. -/
theorem C1_withdraw_stake_inverted_unlock :
    ((⟨1, 0⟩ : Env).block_timestamp <
      0 + sampleSettings.unlock_period_of_validator_deposit *
        SECONDS_OF_A_DAY * NANO_SECONDS_MULTIPLE) ∧
    withdraw_stake c1Anchor ⟨1, 0⟩ "alice" =
      some ({ c1Anchor with unbonded_stakes := [] }, 100) ∧
    ¬ ((⟨1, 1814400000000000⟩ : Env).block_timestamp <
      0 + sampleSettings.unlock_period_of_validator_deposit *
        SECONDS_OF_A_DAY * NANO_SECONDS_MULTIPLE) ∧
    withdraw_stake c1Anchor ⟨1, 1814400000000000⟩ "alice" = some (c1Anchor, 0) := by
  refine ⟨by decide, by decide, by decide, by decide⟩

/-!
Wire-format round trips.
-/

theorem pow_256_4 : (256 : Nat) ^ 4 = 2 ^ 32 := by norm_num

theorem pow_256_16 : (256 : Nat) ^ 16 = 2 ^ 128 := by norm_num

theorem leBytes_length (w n : Nat) : (leBytes w n).length = w := by
  induction w generalizing n with
  | zero => rfl
  | succ w ih => simp [leBytes, ih]

theorem fromLE_leBytes (w n : Nat) (h : n < 256 ^ w) : fromLE (leBytes w n) = n := by
  induction w generalizing n with
  | zero =>
      have : n = 0 := by simpa using h
      simp [this, leBytes, fromLE]
  | succ w ih =>
      have h' : n / 256 < 256 ^ w := by
        rw [Nat.div_lt_iff_lt_mul (by norm_num)]
        calc n < 256 ^ (w + 1) := h
          _ = 256 ^ w * 256 := by ring
      simp only [leBytes, fromLE, ih _ h']
      omega

theorem readBytes_append (l r : List Nat) : readBytes l.length (l ++ r) = some (l, r) := by
  rw [readBytes, if_neg (by simp), List.take_left, List.drop_left]

theorem readUIntLE_leBytes (w n : Nat) (r : List Nat) (h : n < 256 ^ w) :
    readUIntLE w (leBytes w n ++ r) = some (n, r) := by
  have hb := readBytes_append (leBytes w n) r
  rw [leBytes_length] at hb
  simp [readUIntLE, hb, fromLE_leBytes w n h]

theorem readString_serializeString (s r : List Nat) (h : s.length < 2 ^ 32) :
    readString (serializeString s ++ r) = some (s, r) := by
  have h' : s.length < 256 ^ 4 := by rw [pow_256_4]; exact h
  rw [serializeString, List.append_assoc, readString]
  simp [readUIntLE_leBytes 4 s.length (s ++ r) h', readBytes_append]

theorem readCount_serializeString (L : List (List Nat)) (r : List Nat)
    (h : ∀ s ∈ L, s.length < 2 ^ 32) :
    readCount readString L.length ((L.map serializeString).flatten ++ r) = some (L, r) := by
  induction L with
  | nil => simp [readCount]
  | cons s t ih =>
      have hs := readString_serializeString s ((t.map serializeString).flatten ++ r)
        (h s (by simp))
      have ht := ih (fun x hx => h x (by simp [hx]))
      simp only [List.map_cons, List.flatten_cons, List.length_cons, List.append_assoc]
      rw [readCount]
      simp [hs, ht]

theorem deserializeLock_serializeLock (p : LockPayload)
    (h1 : p.owner_id_in_appchain.length < 2 ^ 32)
    (h2 : p.receiver_id_in_near.length < 2 ^ 32)
    (h3 : p.amount < 2 ^ 128) :
    deserializeLock (serializeLock p) = some p := by
  have h3' : p.amount < 256 ^ 16 := by rw [pow_256_16]; exact h3
  have hu : readUIntLE 16 (leBytes 16 p.amount) = some (p.amount, []) := by
    have := readUIntLE_leBytes 16 p.amount [] h3'
    simpa using this
  rw [serializeLock, deserializeLock, List.append_assoc]
  simp [readString_serializeString _ _ h1, readString_serializeString _ _ h2, hu]

theorem deserializeBurnAsset_serializeBurnAsset (p : BurnAssetPayload)
    (h0 : p.symbol.length < 2 ^ 32)
    (h1 : p.owner_id_in_appchain.length < 2 ^ 32)
    (h2 : p.receiver_id_in_near.length < 2 ^ 32)
    (h3 : p.amount < 2 ^ 128) :
    deserializeBurnAsset (serializeBurnAsset p) = some p := by
  have h3' : p.amount < 256 ^ 16 := by rw [pow_256_16]; exact h3
  have hu : readUIntLE 16 (leBytes 16 p.amount) = some (p.amount, []) := by
    have := readUIntLE_leBytes 16 p.amount [] h3'
    simpa using this
  rw [serializeBurnAsset, deserializeBurnAsset, List.append_assoc, List.append_assoc]
  simp [readString_serializeString _ _ h0, readString_serializeString _ _ h1,
    readString_serializeString _ _ h2, hu]

theorem deserializePlanNewEra_serialize (p : PlanNewEraPayload)
    (h : p.new_planned_era < 2 ^ 32) :
    deserializePlanNewEra (serializePlanNewEra p) = some p := by
  have h' : p.new_planned_era < 256 ^ 4 := by rw [pow_256_4]; exact h
  have hu : readUIntLE 4 (leBytes 4 p.new_planned_era) = some (p.new_planned_era, []) := by
    have := readUIntLE_leBytes 4 p.new_planned_era [] h'
    simpa using this
  simp [serializePlanNewEra, deserializePlanNewEra, hu]

theorem deserializeEraPayout_serialize (p : EraPayoutPayload)
    (h1 : p.era < 2 ^ 32) (h2 : p.payout < 2 ^ 128)
    (h3 : p.exclude.length < 2 ^ 32) (h4 : ∀ s ∈ p.exclude, s.length < 2 ^ 32) :
    deserializeEraPayout (serializeEraPayout p) = some p := by
  have h1' : p.era < 256 ^ 4 := by rw [pow_256_4]; exact h1
  have h2' : p.payout < 256 ^ 16 := by rw [pow_256_16]; exact h2
  have h3' : p.exclude.length < 256 ^ 4 := by rw [pow_256_4]; exact h3
  have hc : readCount readString p.exclude.length
      ((p.exclude.map serializeString).flatten ++ []) = some (p.exclude, []) :=
    readCount_serializeString p.exclude [] h4
  rw [List.append_nil] at hc
  rw [serializeEraPayout, deserializeEraPayout, List.append_assoc, List.append_assoc]
  simp [readUIntLE_leBytes 4 p.era _ h1', readUIntLE_leBytes 16 p.payout _ h2',
    readUIntLE_leBytes 4 p.exclude.length _ h3', hc]

/-!
Decoder claims.
-/

theorem traverseDecode_eq_none_of_mem (l : List RawMessage) (m : RawMessage)
    (hm : m ∈ l) (hf : decodeRawMessage m = none) : traverseDecode l = none := by
  induction l with
  | nil => simp at hm
  | cons x t ih =>
      rw [traverseDecode]
      rcases List.mem_cons.mp hm with h | h
      · subst h; simp [hf]
      · cases hx : decodeRawMessage x with
        | none => simp [hx]
        | some b => simp [hx, ih h]

theorem traverseDecode_isSome_of_forall (l : List RawMessage)
    (h : ∀ m ∈ l, (decodeRawMessage m).isSome) : (traverseDecode l).isSome := by
  induction l with
  | nil => simp [traverseDecode]
  | cons x t ih =>
      obtain ⟨b, hb⟩ := Option.isSome_iff_exists.mp (h x (by simp))
      obtain ⟨bs, hbs⟩ :=
        Option.isSome_iff_exists.mp (ih (fun m hm => h m (by simp [hm])))
      simp [traverseDecode, hb, hbs]

theorem traverseDecode_some_spec :
    ∀ (l : List RawMessage) (bs : List AppchainMessage), traverseDecode l = some bs →
      bs.length = l.length ∧ ∀ i : Nat, (l[i]?.bind decodeRawMessage) = bs[i]? := by
  intro l
  induction l with
  | nil =>
      intro bs h
      simp only [traverseDecode, Option.some.injEq] at h
      subst h
      simp
  | cons x t ih =>
      intro bs h
      rw [traverseDecode] at h
      cases hx : decodeRawMessage x with
      | none => rw [hx] at h; simp at h
      | some b =>
          rw [hx] at h
          cases ht : traverseDecode t with
          | none => rw [ht] at h; simp at h
          | some bt =>
              rw [ht] at h
              simp only [bind, Option.some_bind, Option.some.injEq] at h
              subst h
              obtain ⟨hlen, hidx⟩ := ih bt ht
              refine ⟨by simp [hlen], ?_⟩
              intro i
              cases i with
              | zero => simp [hx]
              | succ i' => simpa using hidx i'

/-- C4: all-or-nothing decoding — if the envelope fails to decode, or any
single entry's payload fails against its tag's schema, `decode` produces no
events at all (never a successfully decoded prefix; the panic also leaves
all persisted state untouched since `decode` takes `&self` and writes
nothing); if everything is well-formed it returns exactly one event per raw
entry, in input order. -/
theorem C4_decode_all_or_nothing (input : List Nat) :
    (decodeEnvelope input = none → decode input = none) ∧
    (∀ raws rest, decodeEnvelope input = some (raws, rest) →
      ((∃ m ∈ raws, decodeRawMessage m = none) → decode input = none) ∧
      ((∀ m ∈ raws, (decodeRawMessage m).isSome) →
        ∃ events, decode input = some events ∧
          events.length = raws.length ∧
          ∀ i : Nat, (raws[i]?.bind decodeRawMessage) = events[i]?)) := by
  constructor
  · intro h
    simp [decode, h]
  · intro raws rest h
    constructor
    · rintro ⟨m, hm, hnone⟩
      simp [decode, h, traverseDecode_eq_none_of_mem raws m hm hnone]
    · intro hall
      obtain ⟨events, hev⟩ :=
        Option.isSome_iff_exists.mp (traverseDecode_isSome_of_forall raws hall)
      obtain ⟨hlen, hidx⟩ := traverseDecode_some_spec raws events hev
      exact ⟨events, by simp [decode, h, hev], hlen, hidx⟩

/-- Witness for C4: a blob with a malformed envelope, a 3-message batch
whose second payload is malformed (no events at all), and a well-formed
3-message batch (one event per entry, in order). -/
theorem C4_decode_all_or_nothing_witness :
    (decodeEnvelope [1] = none ∧ decode [1] = none) ∧
    (decodeEnvelope c4BadBlob = some (c4RawBad, []) ∧
      (∃ m ∈ c4RawBad, decodeRawMessage m = none) ∧
      decode c4BadBlob = none) ∧
    (∃ events, decode c4GoodBlob = some events ∧
      events.length = c4RawGood.length ∧
      ∀ i : Nat, (c4RawGood[i]?.bind decodeRawMessage) = events[i]?) :=
  ⟨⟨by decide, (C4_decode_all_or_nothing [1]).1 (by decide)⟩,
   ⟨by decide, by decide,
    ((C4_decode_all_or_nothing c4BadBlob).2 c4RawBad [] (by decide)).1 (by decide)⟩,
   ((C4_decode_all_or_nothing c4GoodBlob).2 c4RawGood [] (by decide)).2 (by decide)⟩

/-- C3 counterexample: decoding is lossy.  A well-formed Lock message with
nonce `2^32` decodes to an event with nonce 0 (`u64 → u32` truncation),
and two well-formed EraPayout messages differing only in their `payout`
field decode to the *same* domain event — the payout is dropped. -/
theorem C3_decode_lossy_counterexample :
    ((decodeRawMessage
        (⟨4294967296, PayloadType.Lock, serializeLock ⟨[97], [98], 5⟩⟩ : RawMessage)).map
        (fun m => m.nonce)) = some 0 ∧
    (0 : Nat) ≠ 4294967296 ∧
    decodeRawMessage
        (⟨1, PayloadType.EraPayout, serializeEraPayout ⟨2, 7, [[99]]⟩⟩ : RawMessage) =
      decodeRawMessage
        (⟨1, PayloadType.EraPayout, serializeEraPayout ⟨2, 9, [[99]]⟩⟩ : RawMessage) ∧
    serializeEraPayout ⟨2, 7, [[99]]⟩ ≠ serializeEraPayout ⟨2, 9, [[99]]⟩ :=
  ⟨by decide, by decide, by decide, by decide⟩

/-- C3 (amended): decoding the wire form of each of the four payload types
recovers the original payload fields exactly — except that the nonce is
recovered only modulo `2^32` (the `u64 → u32` cast truncates larger
nonces) and the EraPayout `payout` field is not represented in the domain
event at all (the conclusion below does not depend on `ep.payout`). -/
theorem C3_decode_roundtrip_amended (nonce : Nat)
    (lp : LockPayload) (bp : BurnAssetPayload) (pp : PlanNewEraPayload)
    (ep : EraPayoutPayload)
    (hl1 : lp.owner_id_in_appchain.length < 2 ^ 32)
    (hl2 : lp.receiver_id_in_near.length < 2 ^ 32)
    (hl3 : lp.amount < 2 ^ 128)
    (hb0 : bp.symbol.length < 2 ^ 32)
    (hb1 : bp.owner_id_in_appchain.length < 2 ^ 32)
    (hb2 : bp.receiver_id_in_near.length < 2 ^ 32)
    (hb3 : bp.amount < 2 ^ 128)
    (hp1 : pp.new_planned_era < 2 ^ 32)
    (he1 : ep.era < 2 ^ 32) (he2 : ep.payout < 2 ^ 128)
    (he3 : ep.exclude.length < 2 ^ 32) (he4 : ∀ s ∈ ep.exclude, s.length < 2 ^ 32) :
    decodeRawMessage (⟨nonce, PayloadType.Lock, serializeLock lp⟩ : RawMessage) =
      some ⟨AppchainEvent.NativeTokenLocked lp.owner_id_in_appchain
        lp.receiver_id_in_near lp.amount, nonce % 2 ^ 32⟩ ∧
    decodeRawMessage (⟨nonce, PayloadType.BurnAsset, serializeBurnAsset bp⟩ : RawMessage) =
      some ⟨AppchainEvent.NearFungibleTokenBurnt bp.symbol bp.owner_id_in_appchain
        bp.receiver_id_in_near bp.amount, nonce % 2 ^ 32⟩ ∧
    decodeRawMessage (⟨nonce, PayloadType.PlanNewEra, serializePlanNewEra pp⟩ : RawMessage) =
      some ⟨AppchainEvent.EraSwitchPlaned pp.new_planned_era, nonce % 2 ^ 32⟩ ∧
    decodeRawMessage (⟨nonce, PayloadType.EraPayout, serializeEraPayout ep⟩ : RawMessage) =
      some ⟨AppchainEvent.EraRewardConcluded ep.era ep.exclude, nonce % 2 ^ 32⟩ := by
  refine ⟨?_, ?_, ?_, ?_⟩
  · simp [decodeRawMessage, deserializeLock_serializeLock lp hl1 hl2 hl3]
  · simp [decodeRawMessage,
      deserializeBurnAsset_serializeBurnAsset bp hb0 hb1 hb2 hb3]
  · simp [decodeRawMessage, deserializePlanNewEra_serialize pp hp1]
  · simp [decodeRawMessage, deserializeEraPayout_serialize ep he1 he2 he3 he4]

/-- Witness for C3 (amended) at concrete payloads and nonce `2^32 + 1`. -/
theorem C3_decode_roundtrip_amended_witness :
    decodeRawMessage
        (⟨4294967297, PayloadType.Lock, serializeLock ⟨[97], [98], 5⟩⟩ : RawMessage) =
      some ⟨AppchainEvent.NativeTokenLocked [97] [98] 5, 4294967297 % 2 ^ 32⟩ ∧
    decodeRawMessage
        (⟨4294967297, PayloadType.EraPayout, serializeEraPayout ⟨2, 7, [[99]]⟩⟩ : RawMessage) =
      some ⟨AppchainEvent.EraRewardConcluded 2 [[99]], 4294967297 % 2 ^ 32⟩ :=
  ⟨(C3_decode_roundtrip_amended 4294967297 ⟨[97], [98], 5⟩ ⟨[], [], [], 0⟩ ⟨0⟩
      ⟨2, 7, [[99]]⟩
      (by decide) (by decide) (by decide) (by decide) (by decide) (by decide)
      (by decide) (by decide) (by decide) (by decide) (by decide)
      (by decide)).1,
   (C3_decode_roundtrip_amended 4294967297 ⟨[97], [98], 5⟩ ⟨[], [], [], 0⟩ ⟨0⟩
      ⟨2, 7, [[99]]⟩
      (by decide) (by decide) (by decide) (by decide) (by decide) (by decide)
      (by decide) (by decide) (by decide) (by decide) (by decide)
      (by decide)).2.2.2⟩

/-!
The `ValidatorUnbonded` cascade.
-/

theorem removeDelegator_delegators (validator_id : AccountId) (s : ValidatorSet)
    (d : AccountId) :
    (removeDelegatorOfUnbondedValidator validator_id s d).delegators =
      alist_remove s.delegators (d, validator_id) := by
  rcases h : alist_get s.delegator_id_to_validator_id_set d with _ | vs
  · simp [removeDelegatorOfUnbondedValidator, h]
  · simp only [removeDelegatorOfUnbondedValidator, h]
    split_ifs <;> rfl

theorem removeDelegator_d2v (validator_id : AccountId) (s : ValidatorSet)
    (d : AccountId) :
    (removeDelegatorOfUnbondedValidator validator_id s d).delegator_id_to_validator_id_set =
      d2vPruneStep validator_id s.delegator_id_to_validator_id_set d := by
  rcases h : alist_get s.delegator_id_to_validator_id_set d with _ | vs
  · simp [removeDelegatorOfUnbondedValidator, d2vPruneStep, h]
  · simp only [removeDelegatorOfUnbondedValidator, d2vPruneStep, h]
    split_ifs <;> rfl

theorem removeDelegator_rest (validator_id : AccountId) (s : ValidatorSet)
    (d : AccountId) :
    (removeDelegatorOfUnbondedValidator validator_id s d).era_number = s.era_number ∧
    (removeDelegatorOfUnbondedValidator validator_id s d).validator_id_set =
      s.validator_id_set ∧
    (removeDelegatorOfUnbondedValidator validator_id s d).validator_id_to_delegator_id_set =
      s.validator_id_to_delegator_id_set ∧
    (removeDelegatorOfUnbondedValidator validator_id s d).validators = s.validators ∧
    (removeDelegatorOfUnbondedValidator validator_id s d).total_stake = s.total_stake := by
  rcases h : alist_get s.delegator_id_to_validator_id_set d with _ | vs
  · simp [removeDelegatorOfUnbondedValidator, h]
  · simp only [removeDelegatorOfUnbondedValidator, h]
    split_ifs <;> simp

theorem cascade_fold_delegators (validator_id : AccountId) (ds : List AccountId) :
    ∀ s : ValidatorSet,
      (ds.foldl (removeDelegatorOfUnbondedValidator validator_id) s).delegators =
        ds.foldl (fun m d => alist_remove m (d, validator_id)) s.delegators := by
  induction ds with
  | nil => intro s; rfl
  | cons d t ih =>
      intro s
      rw [List.foldl_cons, List.foldl_cons, ih, removeDelegator_delegators]

theorem cascade_fold_d2v (validator_id : AccountId) (ds : List AccountId) :
    ∀ s : ValidatorSet,
      (ds.foldl (removeDelegatorOfUnbondedValidator validator_id)
          s).delegator_id_to_validator_id_set =
        ds.foldl (d2vPruneStep validator_id) s.delegator_id_to_validator_id_set := by
  induction ds with
  | nil => intro s; rfl
  | cons d t ih =>
      intro s
      rw [List.foldl_cons, List.foldl_cons, ih, removeDelegator_d2v]

theorem cascade_fold_rest (validator_id : AccountId) (ds : List AccountId) :
    ∀ s : ValidatorSet,
      (ds.foldl (removeDelegatorOfUnbondedValidator validator_id) s).era_number =
        s.era_number ∧
      (ds.foldl (removeDelegatorOfUnbondedValidator validator_id) s).validator_id_set =
        s.validator_id_set ∧
      (ds.foldl (removeDelegatorOfUnbondedValidator validator_id)
          s).validator_id_to_delegator_id_set = s.validator_id_to_delegator_id_set ∧
      (ds.foldl (removeDelegatorOfUnbondedValidator validator_id) s).validators =
        s.validators ∧
      (ds.foldl (removeDelegatorOfUnbondedValidator validator_id) s).total_stake =
        s.total_stake := by
  induction ds with
  | nil => intro s; exact ⟨rfl, rfl, rfl, rfl, rfl⟩
  | cons d t ih =>
      intro s
      obtain ⟨i1, i2, i3, i4, i5⟩ := ih (removeDelegatorOfUnbondedValidator validator_id s d)
      obtain ⟨r1, r2, r3, r4, r5⟩ := removeDelegator_rest validator_id s d
      rw [List.foldl_cons]
      exact ⟨i1.trans r1, i2.trans r2, i3.trans r3, i4.trans r4, i5.trans r5⟩

theorem foldl_remove_get (validator_id : AccountId) (ds : List AccountId) :
    ∀ (m0 : List ((AccountId × AccountId) × Delegator)) (d' v' : AccountId),
      alist_get (ds.foldl (fun m d => alist_remove m (d, validator_id)) m0) (d', v') =
        if v' = validator_id ∧ d' ∈ ds then none else alist_get m0 (d', v') := by
  induction ds with
  | nil => intro m0 d' v'; simp
  | cons d t ih =>
      intro m0 d' v'
      rw [List.foldl_cons, ih]
      by_cases hv : v' = validator_id
      · subst hv
        by_cases ht : d' ∈ t
        · simp [ht]
        · by_cases hd : d' = d
          · subst hd
            simp [ht]
          · have hd' : ¬d = d' := fun e => hd e.symm
            simp [ht, hd, hd']
      · have hv' : ¬validator_id = v' := fun e => hv e.symm
        simp [hv, hv']

theorem foldl_remove_nodupKeys (validator_id : AccountId) (ds : List AccountId) :
    ∀ (m0 : List ((AccountId × AccountId) × Delegator)), NodupKeys m0 →
      NodupKeys (ds.foldl (fun m d => alist_remove m (d, validator_id)) m0) := by
  induction ds with
  | nil => intro m0 h; exact h
  | cons d t ih =>
      intro m0 h
      rw [List.foldl_cons]
      exact ih _ (nodupKeys_remove _ h)

theorem foldl_remove_delegSum (validator_id : AccountId) (ds : List AccountId) :
    ∀ (m0 : List ((AccountId × AccountId) × Delegator)) (v' : AccountId),
      v' ≠ validator_id →
      delegSum (ds.foldl (fun m d => alist_remove m (d, validator_id)) m0) v' =
        delegSum m0 v' := by
  induction ds with
  | nil => intro m0 v' _; rfl
  | cons d t ih =>
      intro m0 v' hv
      rw [List.foldl_cons, ih _ _ hv, delegSum_remove_ne (fun e => hv e.symm)]

theorem d2vPruneStep_get_self (validator_id : AccountId)
    (m : List (AccountId × List AccountId)) (d : AccountId) :
    alist_get (d2vPruneStep validator_id m d) d =
      match alist_get m d with
      | some vs =>
          if (uset_remove vs validator_id).length > 0 then
            some (uset_remove vs validator_id)
          else none
      | none => none := by
  unfold d2vPruneStep
  rcases h : alist_get m d with _ | vs
  · simp [h]
  · simp only
    split_ifs with hlen <;> simp [alist_get_insert, alist_get_remove, h]

theorem d2vPruneStep_get_ne (validator_id : AccountId)
    (m : List (AccountId × List AccountId)) (d d' : AccountId) (h : d' ≠ d) :
    alist_get (d2vPruneStep validator_id m d) d' = alist_get m d' := by
  unfold d2vPruneStep
  rcases hm : alist_get m d with _ | vs
  · rfl
  · have h' : ¬d = d' := fun e => h e.symm
    simp only
    split_ifs with hlen <;> simp [alist_get_insert, alist_get_remove, h']

theorem d2vPruneStep_nodupKeys (validator_id : AccountId)
    (m : List (AccountId × List AccountId)) (d : AccountId) (h : NodupKeys m) :
    NodupKeys (d2vPruneStep validator_id m d) := by
  unfold d2vPruneStep
  rcases hm : alist_get m d with _ | vs
  · exact h
  · simp only
    split_ifs with hlen
    · exact nodupKeys_insert _ _ h
    · exact nodupKeys_remove _ h

theorem foldl_d2vPrune_get_notmem (validator_id : AccountId) (ds : List AccountId) :
    ∀ (m0 : List (AccountId × List AccountId)) (d' : AccountId), d' ∉ ds →
      alist_get (ds.foldl (d2vPruneStep validator_id) m0) d' = alist_get m0 d' := by
  induction ds with
  | nil => intro m0 d' _; rfl
  | cons d t ih =>
      intro m0 d' hd
      rw [List.foldl_cons, ih _ _ (fun h => hd (by simp [h])),
        d2vPruneStep_get_ne _ _ _ _ (fun h => hd (by simp [h]))]

theorem foldl_d2vPrune_get_mem (validator_id : AccountId) (ds : List AccountId)
    (hnd : ds.Nodup) :
    ∀ (m0 : List (AccountId × List AccountId)) (d' : AccountId), d' ∈ ds →
      alist_get (ds.foldl (d2vPruneStep validator_id) m0) d' =
        match alist_get m0 d' with
        | some vs =>
            if (uset_remove vs validator_id).length > 0 then
              some (uset_remove vs validator_id)
            else none
        | none => none := by
  induction ds with
  | nil => intro m0 d' h; simp at h
  | cons d t ih =>
      intro m0 d' hd'
      rw [List.foldl_cons]
      rcases List.mem_cons.mp hd' with h | h
      · subst h
        have hdt : d' ∉ t := (List.nodup_cons.mp hnd).1
        rw [foldl_d2vPrune_get_notmem validator_id t _ _ hdt, d2vPruneStep_get_self]
      · have hne : d' ≠ d := by
          intro e
          exact (List.nodup_cons.mp hnd).1 (e ▸ h)
        rw [ih (List.nodup_cons.mp hnd).2 _ _ h, d2vPruneStep_get_ne _ _ _ _ hne]

theorem foldl_d2vPrune_get_mem_some (validator_id : AccountId) (ds : List AccountId)
    (hnd : ds.Nodup) (m0 : List (AccountId × List AccountId)) (d' : AccountId)
    (hd : d' ∈ ds) (vs0 : List AccountId) (hvs0 : alist_get m0 d' = some vs0) :
    alist_get (ds.foldl (d2vPruneStep validator_id) m0) d' =
      if (uset_remove vs0 validator_id).length > 0 then
        some (uset_remove vs0 validator_id)
      else none := by
  rw [foldl_d2vPrune_get_mem validator_id ds hnd m0 d' hd, hvs0]

theorem foldl_d2vPrune_get_mem_none (validator_id : AccountId) (ds : List AccountId)
    (hnd : ds.Nodup) (m0 : List (AccountId × List AccountId)) (d' : AccountId)
    (hd : d' ∈ ds) (hnone : alist_get m0 d' = none) :
    alist_get (ds.foldl (d2vPruneStep validator_id) m0) d' = none := by
  rw [foldl_d2vPrune_get_mem validator_id ds hnd m0 d' hd, hnone]

theorem foldl_d2vPrune_nodupKeys (validator_id : AccountId) (ds : List AccountId) :
    ∀ (m0 : List (AccountId × List AccountId)), NodupKeys m0 →
      NodupKeys (ds.foldl (d2vPruneStep validator_id) m0) := by
  induction ds with
  | nil => intro m0 h; exact h
  | cons d t ih =>
      intro m0 h
      rw [List.foldl_cons]
      exact ih _ (d2vPruneStep_nodupKeys _ _ _ h)

theorem apply_validator_unbonded_spec (s : ValidatorSet) (env : Env)
    (h : StakingHistory) (validator_id : AccountId) (amount : Nat)
    (validator : Validator)
    (hfact : h.staking_fact = StakingFact.ValidatorUnbonded validator_id amount)
    (hget : alist_get s.validators validator_id = some validator)
    (hle : validator.total_stake ≤ s.total_stake) :
    ∃ s', s.apply_staking_history env h = some s' ∧
      s'.era_number = s.era_number ∧
      s'.validators = alist_remove s.validators validator_id ∧
      s'.validator_id_set = uset_remove s.validator_id_set validator_id ∧
      s'.total_stake = s.total_stake - validator.total_stake ∧
      s'.validator_id_to_delegator_id_set =
        alist_remove s.validator_id_to_delegator_id_set validator_id ∧
      s'.delegators = (dsOf s validator_id).foldl
        (fun m d => alist_remove m (d, validator_id)) s.delegators ∧
      s'.delegator_id_to_validator_id_set =
        (dsOf s validator_id).foldl (d2vPruneStep validator_id)
          s.delegator_id_to_validator_id_set := by
  have hsub : checkedSub s.total_stake validator.total_stake =
      some (s.total_stake - validator.total_stake) := by
    simp [checkedSub, hle]
  rcases hv2d : alist_get s.validator_id_to_delegator_id_set validator_id with _ | ds
  · have hds : dsOf s validator_id = [] := by simp [dsOf, hv2d]
    simp only [ValidatorSet.apply_staking_history, hfact, hv2d, hds, List.foldl_nil,
      hget, hsub, bind, Option.some_bind, Option.some.injEq]
    refine ⟨_, rfl, rfl, rfl, rfl, rfl, ?_, rfl, rfl⟩
    exact (alist_remove_of_get_none hv2d).symm
  · have hds : dsOf s validator_id = ds := by simp [dsOf, hv2d]
    obtain ⟨e1, e2, e3, e4, e5⟩ := cascade_fold_rest validator_id ds s
    have hdel := cascade_fold_delegators validator_id ds s
    have hd2v := cascade_fold_d2v validator_id ds s
    simp only [ValidatorSet.apply_staking_history, hfact, hv2d, hds]
    simp only [e1, e2, e3, e4, e5, hdel, hd2v, hget, hsub, bind, Option.some_bind,
      Option.some.injEq]
    exact ⟨_, rfl, rfl, rfl, rfl, rfl, rfl, rfl, rfl⟩

/-- C6: applying a `ValidatorUnbonded` fact for a registered validator V
(whose validator-to-delegators index entry lists exactly the delegators
recorded for V) removes every delegator of V from the delegator table and
from both cross-index maps — pruning a delegator's index entry entirely
when its validator set becomes empty — deletes V's record and id, and
decreases the set aggregate `total_stake` by exactly V's pre-removal
`total_stake`. -/
theorem C6_validator_unbonded_cascade (s : ValidatorSet) (env : Env)
    (h : StakingHistory) (validator_id : AccountId) (amount : Nat)
    (validator : Validator)
    (hfact : h.staking_fact = StakingFact.ValidatorUnbonded validator_id amount)
    (hget : alist_get s.validators validator_id = some validator)
    (hle : validator.total_stake ≤ s.total_stake)
    (hnd : (dsOf s validator_id).Nodup)
    (hcons : ∀ p ∈ s.delegators, p.1.2 = validator_id →
        p.1.1 ∈ dsOf s validator_id) :
    ∃ s', s.apply_staking_history env h = some s' ∧
      (∀ d, alist_get s'.delegators (d, validator_id) = none) ∧
      alist_get s'.validator_id_to_delegator_id_set validator_id = none ∧
      (∀ d, d ∈ dsOf s validator_id →
        alist_get s'.delegator_id_to_validator_id_set d =
          (match alist_get s.delegator_id_to_validator_id_set d with
           | some vs =>
               if (uset_remove vs validator_id).length > 0 then
                 some (uset_remove vs validator_id)
               else none
           | none => none)) ∧
      alist_get s'.validators validator_id = none ∧
      validator_id ∉ s'.validator_id_set ∧
      s'.total_stake = s.total_stake - validator.total_stake := by
  obtain ⟨s', happly, he, hvals, hidset, htot, hv2d, hdel, hd2v⟩ :=
    apply_validator_unbonded_spec s env h validator_id amount validator hfact hget hle
  refine ⟨s', happly, ?_, ?_, ?_, ?_, ?_, ?_⟩
  · intro d
    rw [hdel, foldl_remove_get]
    by_cases hd : d ∈ dsOf s validator_id
    · simp [hd]
    · simp only [hd, and_false, if_false]
      rcases ho : alist_get s.delegators (d, validator_id) with _ | del
      · rfl
      · exact absurd (hcons (⟨(d, validator_id), del⟩) (mem_of_alist_get ho) rfl) hd
  · rw [hv2d]
    simp
  · intro d hd
    rw [hd2v, foldl_d2vPrune_get_mem validator_id _ hnd _ _ hd]
  · rw [hvals]
    simp
  · rw [hidset, mem_uset_remove]
    simp
  · exact htot

/-- Witness for C6: unbonding validator `v` with one delegator `d1`
(deposit 10, validator total stake 110, aggregate 110). -/
theorem C6_validator_unbonded_cascade_witness :
    ∃ s', c6Set.apply_staking_history ⟨2, 2⟩ c6History = some s' ∧
      (∀ d, alist_get s'.delegators (d, "v") = none) ∧
      alist_get s'.validator_id_to_delegator_id_set "v" = none ∧
      (∀ d, d ∈ dsOf c6Set "v" →
        alist_get s'.delegator_id_to_validator_id_set d =
          (match alist_get c6Set.delegator_id_to_validator_id_set d with
           | some vs =>
               if (uset_remove vs "v").length > 0 then some (uset_remove vs "v")
               else none
           | none => none)) ∧
      alist_get s'.validators "v" = none ∧
      "v" ∉ s'.validator_id_set ∧
      s'.total_stake = c6Set.total_stake - c6Validator.total_stake :=
  C6_validator_unbonded_cascade c6Set ⟨2, 2⟩ c6History "v" 100 c6Validator
    (by decide) (by decide) (by decide) (by decide) (by decide)

/-- C7: applying `DelegatorRegistered` with amount x for a new
(delegator, V) pair on a set containing V increases V's `total_stake` by
exactly x, leaves V's `deposit_amount` unchanged, increases the set
aggregate by exactly x, inserts the delegator record, and inserts the pair
into both cross-index maps (lazily creating the per-key sets when absent). -/
theorem C7_delegator_registered (s : ValidatorSet) (env : Env) (h : StakingHistory)
    (delegator_id validator_id : AccountId) (amount : Nat) (validator : Validator)
    (hfact : h.staking_fact =
      StakingFact.DelegatorRegistered delegator_id validator_id amount)
    (hget : alist_get s.validators validator_id = some validator)
    (_hnew : alist_get s.delegators (delegator_id, validator_id) = none)
    (hb1 : validator.total_stake + amount < U128_BOUND)
    (hb2 : s.total_stake + amount < U128_BOUND) :
    ∃ s', s.apply_staking_history env h = some s' ∧
      (∃ validator', alist_get s'.validators validator_id = some validator' ∧
        validator'.total_stake = validator.total_stake + amount ∧
        validator'.deposit_amount = validator.deposit_amount) ∧
      s'.total_stake = s.total_stake + amount ∧
      (∃ delegator',
        alist_get s'.delegators (delegator_id, validator_id) = some delegator' ∧
        delegator'.deposit_amount = amount) ∧
      (∃ ds, alist_get s'.validator_id_to_delegator_id_set validator_id = some ds ∧
        delegator_id ∈ ds) ∧
      (∃ vs, alist_get s'.delegator_id_to_validator_id_set delegator_id = some vs ∧
        validator_id ∈ vs) := by
  have hadd1 : checkedAdd U128_BOUND validator.total_stake amount =
      some (validator.total_stake + amount) := by
    simp [checkedAdd, hb1]
  have hadd2 : checkedAdd U128_BOUND s.total_stake amount =
      some (s.total_stake + amount) := by
    simp [checkedAdd, hb2]
  obtain ⟨ds₀, hds₀⟩ : ∃ ds₀,
      alist_get (if alist_contains s.validator_id_to_delegator_id_set validator_id then
          s.validator_id_to_delegator_id_set
        else alist_insert s.validator_id_to_delegator_id_set validator_id [])
        validator_id = some ds₀ := by
    by_cases hc : alist_contains s.validator_id_to_delegator_id_set validator_id
    · obtain ⟨ds₀, h0⟩ :=
        Option.isSome_iff_exists.mp (by simpa [alist_contains] using hc)
      exact ⟨ds₀, by simp [hc, h0]⟩
    · exact ⟨[], by simp [hc]⟩
  obtain ⟨vs₀, hvs₀⟩ : ∃ vs₀,
      alist_get (if alist_contains s.delegator_id_to_validator_id_set delegator_id then
          s.delegator_id_to_validator_id_set
        else alist_insert s.delegator_id_to_validator_id_set delegator_id [])
        delegator_id = some vs₀ := by
    by_cases hc : alist_contains s.delegator_id_to_validator_id_set delegator_id
    · obtain ⟨vs₀, h0⟩ :=
        Option.isSome_iff_exists.mp (by simpa [alist_contains] using hc)
      exact ⟨vs₀, by simp [hc, h0]⟩
    · exact ⟨[], by simp [hc]⟩
  simp only [ValidatorSet.apply_staking_history, hfact, hds₀, hvs₀, hget, hadd1, hadd2,
    bind, Option.some_bind, Option.some.injEq]
  refine ⟨_, rfl,
    ⟨{ validator with total_stake := validator.total_stake + amount },
      by simp, rfl, rfl⟩,
    by simp,
    ⟨{ delegator_id := delegator_id, validator_id := validator_id,
       registered_block_height := env.block_height,
       registered_timestamp := env.block_timestamp, deposit_amount := amount },
      by simp, rfl⟩,
    ⟨uset_insert ds₀ delegator_id, by simp, mem_uset_insert.mpr (Or.inr rfl)⟩,
    ⟨uset_insert vs₀ validator_id, by simp, mem_uset_insert.mpr (Or.inr rfl)⟩⟩

/-- Witness for C7: registering delegator `d2` with amount 7 to validator
`v` of `c6Set`. -/
theorem C7_delegator_registered_witness :
    ∃ s', c6Set.apply_staking_history ⟨3, 3⟩
        { staking_fact := StakingFact.DelegatorRegistered "d2" "v" 7
          block_height := 3, timestamp := 3, index := 1 } = some s' ∧
      (∃ validator', alist_get s'.validators "v" = some validator' ∧
        validator'.total_stake = c6Validator.total_stake + 7 ∧
        validator'.deposit_amount = c6Validator.deposit_amount) ∧
      s'.total_stake = c6Set.total_stake + 7 ∧
      (∃ delegator', alist_get s'.delegators ("d2", "v") = some delegator' ∧
        delegator'.deposit_amount = 7) ∧
      (∃ ds, alist_get s'.validator_id_to_delegator_id_set "v" = some ds ∧
        "d2" ∈ ds) ∧
      (∃ vs, alist_get s'.delegator_id_to_validator_id_set "d2" = some vs ∧
        "v" ∈ vs) :=
  C7_delegator_registered c6Set ⟨3, 3⟩
    { staking_fact := StakingFact.DelegatorRegistered "d2" "v" 7
      block_height := 3, timestamp := 3, index := 1 }
    "d2" "v" 7 c6Validator (by decide) (by decide) (by decide) (by decide) (by decide)

/-!
Invariant preservation of `apply_staking_history` (claim C9).
-/

theorem contains_eq_false_get_none {K V : Type} [DecidableEq K] {m : List (K × V)}
    {k : K} (h : alist_contains m k = false) : alist_get m k = none := by
  rcases ho : alist_get m k with _ | v
  · rfl
  · rw [alist_contains, ho] at h
    simp at h

theorem contains_eq_true_get_some {K V : Type} [DecidableEq K] {m : List (K × V)}
    {k : K} (h : alist_contains m k = true) : ∃ v, alist_get m k = some v := by
  simpa [alist_contains, Option.isSome_iff_exists] using h

theorem get_insert_isSome_iff {K V : Type} [DecidableEq K] {m : List (K × V)} {k : K}
    {v : V} (hk : (alist_get m k).isSome) (k' : K) :
    (alist_get (alist_insert m k v) k').isSome ↔ (alist_get m k').isSome := by
  rw [alist_get_insert]
  by_cases e : k = k'
  · subst e
    simp [hk]
  · simp [e]

theorem vsinv_validator_registered (s : ValidatorSet) (env : Env) (h : StakingHistory)
    (vid aid : AccountId) (amount : Nat) (can : Bool)
    (hfact : h.staking_fact = StakingFact.ValidatorRegistered vid aid amount can)
    (inv : VSInv s) (hpre : factPre s h.staking_fact = true) :
    ∃ s', s.apply_staking_history env h = some s' ∧ VSInv s' := by
  rw [hfact] at hpre
  simp only [factPre, Bool.and_eq_true, Bool.not_eq_true', decide_eq_true_eq] at hpre
  obtain ⟨hnc, hbound⟩ := hpre
  have hnone : alist_get s.validators vid = none := contains_eq_false_get_none hnc
  have hadd : checkedAdd U128_BOUND s.total_stake amount =
      some (s.total_stake + amount) := by
    simp [checkedAdd, hbound]
  simp only [ValidatorSet.apply_staking_history, hfact, hadd, bind, Option.some_bind,
    Option.some.injEq]
  refine ⟨_, rfl, ?_⟩
  refine ⟨nodupKeys_insert _ _ inv.nk_validators, inv.nk_delegators, inv.nk_v2d,
    inv.nk_d2v, inv.nd_v2d, inv.nd_d2v, inv.cons_v2d, inv.cons_d2v, ?_, ?_, ?_⟩
  · intro d v hd
    have hs := inv.dv_exists d v hd
    rw [alist_get_insert]
    by_cases hv : vid = v <;> simp [hv, hs]
  · intro v validator' hv'
    rw [alist_get_insert] at hv'
    by_cases hvv : vid = v
    · subst hvv
      rw [if_pos rfl] at hv'
      have hz : delegSum s.delegators vid = 0 := by
        apply delegSum_eq_zero
        intro d
        rcases ho : alist_get s.delegators (d, vid) with _ | del
        · rfl
        · have := inv.dv_exists d vid (by simp [ho])
          rw [hnone] at this
          simp at this
      rw [← Option.some.inj hv']
      simp [hz]
    · rw [if_neg hvv] at hv'
      exact inv.veq v validator' hv'
  · show s.total_stake + amount =
      msum (fun validator => validator.total_stake) (alist_insert s.validators vid _)
    rw [msum_insert, alist_remove_of_get_none hnone, ← inv.aggr]
    show s.total_stake + amount = amount + s.total_stake
    omega

theorem vsinv_stake_increased (s : ValidatorSet) (env : Env) (h : StakingHistory)
    (vid : AccountId) (amount : Nat)
    (hfact : h.staking_fact = StakingFact.StakeIncreased vid amount)
    (inv : VSInv s) (hpre : factPre s h.staking_fact = true) :
    ∃ s', s.apply_staking_history env h = some s' ∧ VSInv s' := by
  rw [hfact] at hpre
  simp only [factPre, Bool.and_eq_true, decide_eq_true_eq] at hpre
  obtain ⟨hc, hbound⟩ := hpre
  obtain ⟨validator, hget⟩ := contains_eq_true_get_some hc
  have hveq := inv.veq vid validator hget
  have hvt : validator.total_stake ≤ s.total_stake := by
    rw [inv.aggr]
    simpa using le_msum_of_get (f := fun validator => validator.total_stake)
      inv.nk_validators hget
  have ha1 : checkedAdd U128_BOUND validator.deposit_amount amount =
      some (validator.deposit_amount + amount) := by
    have hb : validator.deposit_amount + amount < U128_BOUND := by omega
    simp [checkedAdd, hb]
  have ha2 : checkedAdd U128_BOUND validator.total_stake amount =
      some (validator.total_stake + amount) := by
    have hb : validator.total_stake + amount < U128_BOUND := by omega
    simp [checkedAdd, hb]
  have ha3 : checkedAdd U128_BOUND s.total_stake amount =
      some (s.total_stake + amount) := by
    simp [checkedAdd, hbound]
  simp only [ValidatorSet.apply_staking_history, hfact, hget, ha1, ha2, ha3, bind,
    Option.some_bind, Option.some.injEq]
  refine ⟨_, rfl, ?_⟩
  refine ⟨nodupKeys_insert _ _ inv.nk_validators, inv.nk_delegators, inv.nk_v2d,
    inv.nk_d2v, inv.nd_v2d, inv.nd_d2v, inv.cons_v2d, inv.cons_d2v, ?_, ?_, ?_⟩
  · intro d v hd
    exact (get_insert_isSome_iff (by simp [hget]) v).mpr (inv.dv_exists d v hd)
  · intro v validator' hv'
    rw [alist_get_insert] at hv'
    by_cases hvv : vid = v
    · subst hvv
      rw [if_pos rfl] at hv'
      rw [← Option.some.inj hv']
      show validator.total_stake + amount =
        validator.deposit_amount + amount + delegSum s.delegators vid
      omega
    · rw [if_neg hvv] at hv'
      exact inv.veq v validator' hv'
  · have hrm : msum (fun validator => validator.total_stake)
          (alist_remove s.validators vid) + validator.total_stake =
        msum (fun validator => validator.total_stake) s.validators := by
      simpa using msum_remove_add (f := fun validator => validator.total_stake)
        inv.nk_validators hget
    have haggr := inv.aggr
    show s.total_stake + amount = msum _ (alist_insert s.validators vid _)
    rw [msum_insert]
    show s.total_stake + amount = validator.total_stake + amount +
      msum (fun validator => validator.total_stake) (alist_remove s.validators vid)
    omega

theorem vsinv_stake_decreased (s : ValidatorSet) (env : Env) (h : StakingHistory)
    (vid : AccountId) (amount : Nat)
    (hfact : h.staking_fact = StakingFact.StakeDecreased vid amount)
    (inv : VSInv s) (hpre : factPre s h.staking_fact = true) :
    ∃ s', s.apply_staking_history env h = some s' ∧ VSInv s' := by
  rw [hfact] at hpre
  rcases hget : alist_get s.validators vid with _ | validator
  · simp [factPre, hget] at hpre
  · simp only [factPre, hget, decide_eq_true_eq] at hpre
    have hveq := inv.veq vid validator hget
    have hvt : validator.total_stake ≤ s.total_stake := by
      rw [inv.aggr]
      simpa using le_msum_of_get (f := fun validator => validator.total_stake)
        inv.nk_validators hget
    have hs1 : checkedSub validator.deposit_amount amount =
        some (validator.deposit_amount - amount) := by
      simp [checkedSub, hpre]
    have hs2 : checkedSub validator.total_stake amount =
        some (validator.total_stake - amount) := by
      have hb : amount ≤ validator.total_stake := by omega
      simp [checkedSub, hb]
    have hs3 : checkedSub s.total_stake amount = some (s.total_stake - amount) := by
      have hb : amount ≤ s.total_stake := by omega
      simp [checkedSub, hb]
    simp only [ValidatorSet.apply_staking_history, hfact, hget, hs1, hs2, hs3, bind,
      Option.some_bind, Option.some.injEq]
    refine ⟨_, rfl, ?_⟩
    refine ⟨nodupKeys_insert _ _ inv.nk_validators, inv.nk_delegators, inv.nk_v2d,
      inv.nk_d2v, inv.nd_v2d, inv.nd_d2v, inv.cons_v2d, inv.cons_d2v, ?_, ?_, ?_⟩
    · intro d v hd
      exact (get_insert_isSome_iff (by simp [hget]) v).mpr (inv.dv_exists d v hd)
    · intro v validator' hv'
      rw [alist_get_insert] at hv'
      by_cases hvv : vid = v
      · subst hvv
        rw [if_pos rfl] at hv'
        rw [← Option.some.inj hv']
        show validator.total_stake - amount =
          validator.deposit_amount - amount + delegSum s.delegators vid
        omega
      · rw [if_neg hvv] at hv'
        exact inv.veq v validator' hv'
    · have hrm : msum (fun validator => validator.total_stake)
            (alist_remove s.validators vid) + validator.total_stake =
          msum (fun validator => validator.total_stake) s.validators := by
        simpa using msum_remove_add (f := fun validator => validator.total_stake)
          inv.nk_validators hget
      have haggr := inv.aggr
      show s.total_stake - amount = msum _ (alist_insert s.validators vid _)
      rw [msum_insert]
      show s.total_stake - amount = validator.total_stake - amount +
        msum (fun validator => validator.total_stake) (alist_remove s.validators vid)
      omega

theorem vsinv_delegation_enabled (s : ValidatorSet) (env : Env) (h : StakingHistory)
    (vid : AccountId)
    (hfact : h.staking_fact = StakingFact.ValidatorDelegationEnabled vid)
    (inv : VSInv s) (hpre : factPre s h.staking_fact = true) :
    ∃ s', s.apply_staking_history env h = some s' ∧ VSInv s' := by
  rw [hfact] at hpre
  simp only [factPre] at hpre
  obtain ⟨validator, hget⟩ := contains_eq_true_get_some hpre
  have hveq := inv.veq vid validator hget
  have hrm : msum (fun validator => validator.total_stake)
        (alist_remove s.validators vid) + validator.total_stake =
      msum (fun validator => validator.total_stake) s.validators := by
    simpa using msum_remove_add (f := fun validator => validator.total_stake)
      inv.nk_validators hget
  have haggr := inv.aggr
  simp only [ValidatorSet.apply_staking_history, hfact, hget, bind, Option.some_bind,
    Option.some.injEq]
  refine ⟨_, rfl, ?_⟩
  refine ⟨nodupKeys_insert _ _ inv.nk_validators, inv.nk_delegators, inv.nk_v2d,
    inv.nk_d2v, inv.nd_v2d, inv.nd_d2v, inv.cons_v2d, inv.cons_d2v, ?_, ?_, ?_⟩
  · intro d v hd
    exact (get_insert_isSome_iff (by simp [hget]) v).mpr (inv.dv_exists d v hd)
  · intro v validator' hv'
    rw [alist_get_insert] at hv'
    by_cases hvv : vid = v
    · subst hvv
      rw [if_pos rfl] at hv'
      rw [← Option.some.inj hv']
      show validator.total_stake =
        validator.deposit_amount + delegSum s.delegators vid
      omega
    · rw [if_neg hvv] at hv'
      exact inv.veq v validator' hv'
  · show s.total_stake = msum _ (alist_insert s.validators vid _)
    rw [msum_insert]
    show s.total_stake = validator.total_stake +
      msum (fun validator => validator.total_stake) (alist_remove s.validators vid)
    omega

theorem vsinv_delegation_disabled (s : ValidatorSet) (env : Env) (h : StakingHistory)
    (vid : AccountId)
    (hfact : h.staking_fact = StakingFact.ValidatorDelegationDisabled vid)
    (inv : VSInv s) (hpre : factPre s h.staking_fact = true) :
    ∃ s', s.apply_staking_history env h = some s' ∧ VSInv s' := by
  rw [hfact] at hpre
  simp only [factPre] at hpre
  obtain ⟨validator, hget⟩ := contains_eq_true_get_some hpre
  have hveq := inv.veq vid validator hget
  have hrm : msum (fun validator => validator.total_stake)
        (alist_remove s.validators vid) + validator.total_stake =
      msum (fun validator => validator.total_stake) s.validators := by
    simpa using msum_remove_add (f := fun validator => validator.total_stake)
      inv.nk_validators hget
  have haggr := inv.aggr
  simp only [ValidatorSet.apply_staking_history, hfact, hget, bind, Option.some_bind,
    Option.some.injEq]
  refine ⟨_, rfl, ?_⟩
  refine ⟨nodupKeys_insert _ _ inv.nk_validators, inv.nk_delegators, inv.nk_v2d,
    inv.nk_d2v, inv.nd_v2d, inv.nd_d2v, inv.cons_v2d, inv.cons_d2v, ?_, ?_, ?_⟩
  · intro d v hd
    exact (get_insert_isSome_iff (by simp [hget]) v).mpr (inv.dv_exists d v hd)
  · intro v validator' hv'
    rw [alist_get_insert] at hv'
    by_cases hvv : vid = v
    · subst hvv
      rw [if_pos rfl] at hv'
      rw [← Option.some.inj hv']
      show validator.total_stake =
        validator.deposit_amount + delegSum s.delegators vid
      omega
    · rw [if_neg hvv] at hv'
      exact inv.veq v validator' hv'
  · show s.total_stake = msum _ (alist_insert s.validators vid _)
    rw [msum_insert]
    show s.total_stake = validator.total_stake +
      msum (fun validator => validator.total_stake) (alist_remove s.validators vid)
    omega

theorem vsinv_delegation_increased (s : ValidatorSet) (env : Env) (h : StakingHistory)
    (did vid : AccountId) (amount : Nat)
    (hfact : h.staking_fact = StakingFact.DelegationIncreased did vid amount)
    (inv : VSInv s) (hpre : factPre s h.staking_fact = true) :
    ∃ s', s.apply_staking_history env h = some s' ∧ VSInv s' := by
  rw [hfact] at hpre
  simp only [factPre, Bool.and_eq_true, decide_eq_true_eq] at hpre
  obtain ⟨hc, hbound⟩ := hpre
  obtain ⟨delegator, hgetd⟩ := contains_eq_true_get_some hc
  obtain ⟨validator, hgetv⟩ :=
    Option.isSome_iff_exists.mp (inv.dv_exists did vid (by simp [hgetd]))
  have hveq := inv.veq vid validator hgetv
  have hvt : validator.total_stake ≤ s.total_stake := by
    rw [inv.aggr]
    simpa using le_msum_of_get (f := fun validator => validator.total_stake)
      inv.nk_validators hgetv
  have hds : delegator.deposit_amount ≤ delegSum s.delegators vid :=
    delegSum_le inv.nk_delegators hgetd
  have ha1 : checkedAdd U128_BOUND delegator.deposit_amount amount =
      some (delegator.deposit_amount + amount) := by
    have hb : delegator.deposit_amount + amount < U128_BOUND := by omega
    simp [checkedAdd, hb]
  have ha2 : checkedAdd U128_BOUND validator.total_stake amount =
      some (validator.total_stake + amount) := by
    have hb : validator.total_stake + amount < U128_BOUND := by omega
    simp [checkedAdd, hb]
  have ha3 : checkedAdd U128_BOUND s.total_stake amount =
      some (s.total_stake + amount) := by
    simp [checkedAdd, hbound]
  have hrm : msum (fun validator => validator.total_stake)
        (alist_remove s.validators vid) + validator.total_stake =
      msum (fun validator => validator.total_stake) s.validators := by
    simpa using msum_remove_add (f := fun validator => validator.total_stake)
      inv.nk_validators hgetv
  have hdrm := delegSum_remove_add inv.nk_delegators hgetd
  have haggr := inv.aggr
  simp only [ValidatorSet.apply_staking_history, hfact, hgetd, hgetv, ha1, ha2, ha3,
    bind, Option.some_bind, Option.some.injEq]
  refine ⟨_, rfl, ?_⟩
  refine ⟨nodupKeys_insert _ _ inv.nk_validators, nodupKeys_insert _ _ inv.nk_delegators,
    inv.nk_v2d, inv.nk_d2v, inv.nd_v2d, inv.nd_d2v, ?_, ?_, ?_, ?_, ?_⟩
  · intro d' v'
    rw [get_insert_isSome_iff (by simp [hgetd]) (d', v')]
    exact inv.cons_v2d d' v'
  · intro d' v'
    rw [get_insert_isSome_iff (by simp [hgetd]) (d', v')]
    exact inv.cons_d2v d' v'
  · intro d' v' hd'
    rw [get_insert_isSome_iff (by simp [hgetd]) (d', v')] at hd'
    exact (get_insert_isSome_iff (by simp [hgetv]) v').mpr (inv.dv_exists d' v' hd')
  · intro v' validator' hv'
    rw [alist_get_insert] at hv'
    by_cases hvv : vid = v'
    · subst hvv
      rw [if_pos rfl] at hv'
      rw [← Option.some.inj hv']
      show validator.total_stake + amount = validator.deposit_amount +
        delegSum (alist_insert s.delegators (did, vid) _) vid
      rw [delegSum_insert, if_pos rfl]
      show validator.total_stake + amount = validator.deposit_amount +
        (delegator.deposit_amount + amount +
          delegSum (alist_remove s.delegators (did, vid)) vid)
      omega
    · rw [if_neg hvv] at hv'
      have := inv.veq v' validator' hv'
      rw [delegSum_insert, if_neg hvv, delegSum_remove_ne hvv]
      omega
  · show s.total_stake + amount = msum _ (alist_insert s.validators vid _)
    rw [msum_insert]
    show s.total_stake + amount = validator.total_stake + amount +
      msum (fun validator => validator.total_stake) (alist_remove s.validators vid)
    omega

theorem vsinv_delegation_decreased (s : ValidatorSet) (env : Env) (h : StakingHistory)
    (did vid : AccountId) (amount : Nat)
    (hfact : h.staking_fact = StakingFact.DelegationDecreased did vid amount)
    (inv : VSInv s) (hpre : factPre s h.staking_fact = true) :
    ∃ s', s.apply_staking_history env h = some s' ∧ VSInv s' := by
  rw [hfact] at hpre
  rcases hgetd : alist_get s.delegators (did, vid) with _ | delegator
  · simp [factPre, hgetd] at hpre
  · simp only [factPre, hgetd, decide_eq_true_eq] at hpre
    obtain ⟨validator, hgetv⟩ :=
      Option.isSome_iff_exists.mp (inv.dv_exists did vid (by simp [hgetd]))
    have hveq := inv.veq vid validator hgetv
    have hvt : validator.total_stake ≤ s.total_stake := by
      rw [inv.aggr]
      simpa using le_msum_of_get (f := fun validator => validator.total_stake)
        inv.nk_validators hgetv
    have hds : delegator.deposit_amount ≤ delegSum s.delegators vid :=
      delegSum_le inv.nk_delegators hgetd
    have hs1 : checkedSub delegator.deposit_amount amount =
        some (delegator.deposit_amount - amount) := by
      simp [checkedSub, hpre]
    have hs2 : checkedSub validator.total_stake amount =
        some (validator.total_stake - amount) := by
      have hb : amount ≤ validator.total_stake := by omega
      simp [checkedSub, hb]
    have hs3 : checkedSub s.total_stake amount = some (s.total_stake - amount) := by
      have hb : amount ≤ s.total_stake := by omega
      simp [checkedSub, hb]
    have hrm : msum (fun validator => validator.total_stake)
          (alist_remove s.validators vid) + validator.total_stake =
        msum (fun validator => validator.total_stake) s.validators := by
      simpa using msum_remove_add (f := fun validator => validator.total_stake)
        inv.nk_validators hgetv
    have hdrm := delegSum_remove_add inv.nk_delegators hgetd
    have haggr := inv.aggr
    simp only [ValidatorSet.apply_staking_history, hfact, hgetd, hgetv, hs1, hs2, hs3,
      bind, Option.some_bind, Option.some.injEq]
    refine ⟨_, rfl, ?_⟩
    refine ⟨nodupKeys_insert _ _ inv.nk_validators,
      nodupKeys_insert _ _ inv.nk_delegators,
      inv.nk_v2d, inv.nk_d2v, inv.nd_v2d, inv.nd_d2v, ?_, ?_, ?_, ?_, ?_⟩
    · intro d' v'
      rw [get_insert_isSome_iff (by simp [hgetd]) (d', v')]
      exact inv.cons_v2d d' v'
    · intro d' v'
      rw [get_insert_isSome_iff (by simp [hgetd]) (d', v')]
      exact inv.cons_d2v d' v'
    · intro d' v' hd'
      rw [get_insert_isSome_iff (by simp [hgetd]) (d', v')] at hd'
      exact (get_insert_isSome_iff (by simp [hgetv]) v').mpr (inv.dv_exists d' v' hd')
    · intro v' validator' hv'
      rw [alist_get_insert] at hv'
      by_cases hvv : vid = v'
      · subst hvv
        rw [if_pos rfl] at hv'
        rw [← Option.some.inj hv']
        show validator.total_stake - amount = validator.deposit_amount +
          delegSum (alist_insert s.delegators (did, vid) _) vid
        rw [delegSum_insert, if_pos rfl]
        show validator.total_stake - amount = validator.deposit_amount +
          (delegator.deposit_amount - amount +
            delegSum (alist_remove s.delegators (did, vid)) vid)
        omega
      · rw [if_neg hvv] at hv'
        have := inv.veq v' validator' hv'
        rw [delegSum_insert, if_neg hvv, delegSum_remove_ne hvv]
        omega
    · show s.total_stake - amount = msum _ (alist_insert s.validators vid _)
      rw [msum_insert]
      show s.total_stake - amount = validator.total_stake - amount +
        msum (fun validator => validator.total_stake) (alist_remove s.validators vid)
      omega

theorem lazy_insert_get (m : List (AccountId × List AccountId)) (k x : AccountId) :
    ∃ s₀, alist_get (if alist_contains m k then m else alist_insert m k []) k =
        some s₀ ∧
      ((alist_get m k = some s₀) ∨ (alist_get m k = none ∧ s₀ = [])) ∧
      (∀ k', alist_get (alist_insert
          (if alist_contains m k then m else alist_insert m k [])
          k (uset_insert s₀ x)) k' =
        if k = k' then some (uset_insert s₀ x) else alist_get m k') ∧
      (NodupKeys m → NodupKeys (alist_insert
          (if alist_contains m k then m else alist_insert m k [])
          k (uset_insert s₀ x))) := by
  by_cases hc : alist_contains m k
  · obtain ⟨s₀, hs₀⟩ := contains_eq_true_get_some hc
    refine ⟨s₀, by simp [hc, hs₀], Or.inl hs₀, ?_, ?_⟩
    · intro k'
      simp [hc, alist_get_insert]
    · intro hnd
      simp only [hc, if_true]
      exact nodupKeys_insert _ _ hnd
  · refine ⟨[], by simp [hc], Or.inr ⟨contains_eq_false_get_none (Bool.eq_false_iff.mpr hc), rfl⟩, ?_, ?_⟩
    · intro k'
      by_cases hk : k = k' <;> simp [hc, alist_get_insert, hk]
    · intro hnd
      simp only [hc, if_false]
      exact nodupKeys_insert _ _ (nodupKeys_insert _ _ hnd)

theorem vsinv_delegator_registered (s : ValidatorSet) (env : Env) (h : StakingHistory)
    (did vid : AccountId) (amount : Nat)
    (hfact : h.staking_fact = StakingFact.DelegatorRegistered did vid amount)
    (inv : VSInv s) (hpre : factPre s h.staking_fact = true) :
    ∃ s', s.apply_staking_history env h = some s' ∧ VSInv s' := by
  rw [hfact] at hpre
  simp only [factPre, Bool.and_eq_true, Bool.not_eq_true', decide_eq_true_eq] at hpre
  obtain ⟨⟨hcv, hnc⟩, hbound⟩ := hpre
  obtain ⟨validator, hgetv⟩ := contains_eq_true_get_some hcv
  have hnew : alist_get s.delegators (did, vid) = none := contains_eq_false_get_none hnc
  have hveq := inv.veq vid validator hgetv
  have hvt : validator.total_stake ≤ s.total_stake := by
    rw [inv.aggr]
    simpa using le_msum_of_get (f := fun validator => validator.total_stake)
      inv.nk_validators hgetv
  have ha2 : checkedAdd U128_BOUND validator.total_stake amount =
      some (validator.total_stake + amount) := by
    have hb : validator.total_stake + amount < U128_BOUND := by omega
    simp [checkedAdd, hb]
  have ha3 : checkedAdd U128_BOUND s.total_stake amount =
      some (s.total_stake + amount) := by
    simp [checkedAdd, hbound]
  have hrm : msum (fun validator => validator.total_stake)
        (alist_remove s.validators vid) + validator.total_stake =
      msum (fun validator => validator.total_stake) s.validators := by
    simpa using msum_remove_add (f := fun validator => validator.total_stake)
      inv.nk_validators hgetv
  have haggr := inv.aggr
  obtain ⟨ds₀, hds₀, hds₀src, hv2dGet, hv2dNodup⟩ :=
    lazy_insert_get s.validator_id_to_delegator_id_set vid did
  obtain ⟨vs₀, hvs₀, hvs₀src, hd2vGet, hd2vNodup⟩ :=
    lazy_insert_get s.delegator_id_to_validator_id_set did vid
  have hds₀nodup : ds₀.Nodup := by
    rcases hds₀src with hsrc | ⟨_, rfl⟩
    · exact inv.nd_v2d vid ds₀ hsrc
    · exact List.nodup_nil
  have hvs₀nodup : vs₀.Nodup := by
    rcases hvs₀src with hsrc | ⟨_, rfl⟩
    · exact inv.nd_d2v did vs₀ hsrc
    · exact List.nodup_nil
  simp only [ValidatorSet.apply_staking_history, hfact, hds₀, hvs₀, hgetv, ha2, ha3,
    bind, Option.some_bind, Option.some.injEq]
  refine ⟨_, rfl, ?_⟩
  refine ⟨nodupKeys_insert _ _ inv.nk_validators,
    nodupKeys_insert _ _ inv.nk_delegators,
    hv2dNodup inv.nk_v2d, hd2vNodup inv.nk_d2v, ?_, ?_, ?_, ?_, ?_, ?_, ?_⟩
  · intro v' ds' hds'
    rw [hv2dGet v'] at hds'
    by_cases hvv : vid = v'
    · rw [if_pos hvv] at hds'
      rw [← Option.some.inj hds']
      exact nodup_uset_insert _ hds₀nodup
    · rw [if_neg hvv] at hds'
      exact inv.nd_v2d v' ds' hds'
  · intro d' vs' hvs'
    rw [hd2vGet d'] at hvs'
    by_cases hdd : did = d'
    · rw [if_pos hdd] at hvs'
      rw [← Option.some.inj hvs']
      exact nodup_uset_insert _ hvs₀nodup
    · rw [if_neg hdd] at hvs'
      exact inv.nd_d2v d' vs' hvs'
  · intro d' v'
    rw [alist_get_insert, hv2dGet v']
    by_cases hvv : vid = v'
    · subst hvv
      rw [if_pos rfl]
      by_cases hdd : (did, vid) = (d', vid)
      · have hd : d' = did := by
          have := congrArg Prod.fst hdd
          simpa using this.symm
        subst hd
        simp [mem_uset_insert]
      · rw [if_neg hdd]
        have hdne : d' ≠ did := by
          intro e
          exact hdd (by rw [e])
        have hold := inv.cons_v2d d' vid
        constructor
        · intro hs
          obtain ⟨ds'', hds'', hmem⟩ := hold.mp hs
          rcases hds₀src with hsrc | ⟨hnone, rfl⟩
          · rw [hsrc] at hds''
            exact ⟨_, rfl, mem_uset_insert.mpr (Or.inl (Option.some.inj hds'' ▸ hmem))⟩
          · rw [hnone] at hds''
            exact absurd hds'' (by simp)
        · rintro ⟨ds'', hds'', hmem⟩
          rw [← Option.some.inj hds''] at hmem
          rcases mem_uset_insert.mp hmem with hm | hm
          · rcases hds₀src with hsrc | ⟨hnone, rfl⟩
            · exact hold.mpr ⟨ds₀, hsrc, hm⟩
            · simp at hm
          · exact absurd hm hdne
    · rw [if_neg hvv]
      have hne : (did, vid) ≠ (d', v') := by
        intro e
        exact hvv (by rw [show vid = v' from congrArg Prod.snd e])
      rw [if_neg hne]
      exact inv.cons_v2d d' v'
  · intro d' v'
    rw [alist_get_insert, hd2vGet d']
    by_cases hdd : did = d'
    · subst hdd
      rw [if_pos rfl]
      by_cases hvv : (did, vid) = (did, v')
      · have hv : v' = vid := by
          have := congrArg Prod.snd hvv
          simpa using this.symm
        subst hv
        simp [mem_uset_insert]
      · rw [if_neg hvv]
        have hvne : v' ≠ vid := by
          intro e
          exact hvv (by rw [e])
        have hold := inv.cons_d2v did v'
        constructor
        · intro hs
          obtain ⟨vs'', hvs'', hmem⟩ := hold.mp hs
          rcases hvs₀src with hsrc | ⟨hnone, rfl⟩
          · rw [hsrc] at hvs''
            exact ⟨_, rfl, mem_uset_insert.mpr (Or.inl (Option.some.inj hvs'' ▸ hmem))⟩
          · rw [hnone] at hvs''
            exact absurd hvs'' (by simp)
        · rintro ⟨vs'', hvs'', hmem⟩
          rw [← Option.some.inj hvs''] at hmem
          rcases mem_uset_insert.mp hmem with hm | hm
          · rcases hvs₀src with hsrc | ⟨hnone, rfl⟩
            · exact hold.mpr ⟨vs₀, hsrc, hm⟩
            · simp at hm
          · exact absurd hm hvne
    · rw [if_neg hdd]
      have hne : (did, vid) ≠ (d', v') := by
        intro e
        exact hdd (congrArg Prod.fst e)
      rw [if_neg hne]
      exact inv.cons_d2v d' v'
  · intro d' v' hd'
    rw [alist_get_insert] at hd'
    rw [alist_get_insert]
    by_cases he : (did, vid) = (d', v')
    · have hv : vid = v' := congrArg Prod.snd he
      simp [hv]
    · rw [if_neg he] at hd'
      have := inv.dv_exists d' v' hd'
      by_cases hvv : vid = v' <;> simp [hvv, this]
  · intro v' validator' hv'
    rw [alist_get_insert] at hv'
    have hrem : alist_remove s.delegators (did, vid) = s.delegators :=
      alist_remove_of_get_none hnew
    by_cases hvv : vid = v'
    · subst hvv
      rw [if_pos rfl] at hv'
      rw [← Option.some.inj hv']
      show validator.total_stake + amount = validator.deposit_amount +
        delegSum (alist_insert s.delegators (did, vid) _) vid
      rw [delegSum_insert, if_pos rfl, hrem]
      show validator.total_stake + amount = validator.deposit_amount +
        (amount + delegSum s.delegators vid)
      omega
    · rw [if_neg hvv] at hv'
      have := inv.veq v' validator' hv'
      rw [delegSum_insert, if_neg hvv, hrem]
      omega
  · show s.total_stake + amount = msum _ (alist_insert s.validators vid _)
    rw [msum_insert]
    show s.total_stake + amount = validator.total_stake + amount +
      msum (fun validator => validator.total_stake) (alist_remove s.validators vid)
    omega

theorem uset_remove_empty_all {K : Type} [DecidableEq K] {s : List K} {k : K}
    (h : (uset_remove s k).length = 0) : ∀ x ∈ s, x = k := by
  intro x hx
  by_contra hne
  have hmem : x ∈ uset_remove s k := mem_uset_remove.mpr ⟨hx, hne⟩
  rw [List.length_eq_zero.mp h] at hmem
  simp at hmem

theorem vsinv_delegator_unbonded (s : ValidatorSet) (env : Env) (h : StakingHistory)
    (did vid : AccountId) (amount : Nat)
    (hfact : h.staking_fact = StakingFact.DelegatorUnbonded did vid amount)
    (inv : VSInv s) (hpre : factPre s h.staking_fact = true) :
    ∃ s', s.apply_staking_history env h = some s' ∧ VSInv s' := by
  rw [hfact] at hpre
  simp only [factPre] at hpre
  obtain ⟨delegator, hgetd⟩ := contains_eq_true_get_some hpre
  obtain ⟨ds, hds, hdmem⟩ := (inv.cons_v2d did vid).mp (by simp [hgetd])
  obtain ⟨vs, hvs, hvmem⟩ := (inv.cons_d2v did vid).mp (by simp [hgetd])
  obtain ⟨validator, hgetv⟩ :=
    Option.isSome_iff_exists.mp (inv.dv_exists did vid (by simp [hgetd]))
  have hveq := inv.veq vid validator hgetv
  have hvt : validator.total_stake ≤ s.total_stake := by
    rw [inv.aggr]
    simpa using le_msum_of_get (f := fun validator => validator.total_stake)
      inv.nk_validators hgetv
  have hdsle : delegator.deposit_amount ≤ delegSum s.delegators vid :=
    delegSum_le inv.nk_delegators hgetd
  have hs2 : checkedSub validator.total_stake delegator.deposit_amount =
      some (validator.total_stake - delegator.deposit_amount) := by
    have hb : delegator.deposit_amount ≤ validator.total_stake := by omega
    simp [checkedSub, hb]
  have hs3 : checkedSub s.total_stake delegator.deposit_amount =
      some (s.total_stake - delegator.deposit_amount) := by
    have hb : delegator.deposit_amount ≤ s.total_stake := by omega
    simp [checkedSub, hb]
  have hrm : msum (fun validator => validator.total_stake)
        (alist_remove s.validators vid) + validator.total_stake =
      msum (fun validator => validator.total_stake) s.validators := by
    simpa using msum_remove_add (f := fun validator => validator.total_stake)
      inv.nk_validators hgetv
  have hdrm := delegSum_remove_add inv.nk_delegators hgetd
  have haggr := inv.aggr
  have hdsnodup : ds.Nodup := inv.nd_v2d vid ds hds
  have hvsnodup : vs.Nodup := inv.nd_d2v did vs hvs
  simp only [ValidatorSet.apply_staking_history, hfact, hds, hvs, hgetd, hgetv, hs2,
    hs3, bind, Option.some_bind, Option.some.injEq]
  refine ⟨_, rfl, ?_⟩
  have hv2dGet : ∀ v', alist_get
      (if (uset_remove ds did).length > 0 then
        alist_insert s.validator_id_to_delegator_id_set vid (uset_remove ds did)
      else alist_remove s.validator_id_to_delegator_id_set vid) v' =
      if vid = v' then
        (if (uset_remove ds did).length > 0 then some (uset_remove ds did) else none)
      else alist_get s.validator_id_to_delegator_id_set v' := by
    intro v'
    by_cases hb : (uset_remove ds did).length > 0 <;>
      by_cases hvv : vid = v' <;> simp [hb, hvv, alist_get_insert, alist_get_remove]
  have hd2vGet : ∀ d', alist_get
      (if (uset_remove vs vid).length > 0 then
        alist_insert s.delegator_id_to_validator_id_set did (uset_remove vs vid)
      else alist_remove s.delegator_id_to_validator_id_set did) d' =
      if did = d' then
        (if (uset_remove vs vid).length > 0 then some (uset_remove vs vid) else none)
      else alist_get s.delegator_id_to_validator_id_set d' := by
    intro d'
    by_cases hb : (uset_remove vs vid).length > 0 <;>
      by_cases hdd : did = d' <;> simp [hb, hdd, alist_get_insert, alist_get_remove]
  refine ⟨nodupKeys_insert _ _ inv.nk_validators,
    nodupKeys_remove _ inv.nk_delegators, ?_, ?_, ?_, ?_, ?_, ?_, ?_, ?_, ?_⟩
  · by_cases hb : (uset_remove ds did).length > 0 <;> simp only [hb, if_true, if_false]
    · exact nodupKeys_insert _ _ inv.nk_v2d
    · exact nodupKeys_remove _ inv.nk_v2d
  · by_cases hb : (uset_remove vs vid).length > 0 <;> simp only [hb, if_true, if_false]
    · exact nodupKeys_insert _ _ inv.nk_d2v
    · exact nodupKeys_remove _ inv.nk_d2v
  · intro v' ds' hds'
    rw [hv2dGet v'] at hds'
    by_cases hvv : vid = v'
    · rw [if_pos hvv] at hds'
      by_cases hb : (uset_remove ds did).length > 0
      · rw [if_pos hb] at hds'
        rw [← Option.some.inj hds']
        exact nodup_uset_remove _ hdsnodup
      · rw [if_neg hb] at hds'
        exact absurd hds' (by simp)
    · rw [if_neg hvv] at hds'
      exact inv.nd_v2d v' ds' hds'
  · intro d' vs' hvs'
    rw [hd2vGet d'] at hvs'
    by_cases hdd : did = d'
    · rw [if_pos hdd] at hvs'
      by_cases hb : (uset_remove vs vid).length > 0
      · rw [if_pos hb] at hvs'
        rw [← Option.some.inj hvs']
        exact nodup_uset_remove _ hvsnodup
      · rw [if_neg hb] at hvs'
        exact absurd hvs' (by simp)
    · rw [if_neg hdd] at hvs'
      exact inv.nd_d2v d' vs' hvs'
  · intro d' v'
    rw [alist_get_remove, hv2dGet v']
    by_cases hvv : vid = v'
    · subst hvv
      rw [if_pos rfl]
      by_cases hdd : did = d'
      · subst hdd
        rw [if_pos rfl]
        simp only [Option.isSome_none, Bool.false_eq_true, false_iff]
        rintro ⟨ds'', hds'', hmem⟩
        by_cases hb : (uset_remove ds did).length > 0
        · rw [if_pos hb] at hds''
          rw [← Option.some.inj hds''] at hmem
          exact (mem_uset_remove.mp hmem).2 rfl
        · rw [if_neg hb] at hds''
          exact Option.noConfusion hds''
      · have hne : ¬((did, vid) = (d', vid)) := by
          intro e
          exact hdd (congrArg Prod.fst e)
        rw [if_neg hne]
        have hold := inv.cons_v2d d' vid
        rw [hds] at hold
        by_cases hb : (uset_remove ds did).length > 0
        · rw [if_pos hb]
          constructor
          · intro hs
            obtain ⟨ds'', hds'', hmem⟩ := hold.mp hs
            rw [← Option.some.inj hds''] at hmem
            refine ⟨_, rfl, mem_uset_remove.mpr ⟨hmem, fun e => hdd e.symm⟩⟩
          · rintro ⟨ds'', hds'', hmem⟩
            rw [← Option.some.inj hds''] at hmem
            exact hold.mpr ⟨ds, rfl, (mem_uset_remove.mp hmem).1⟩
        · rw [if_neg hb]
          have hall := uset_remove_empty_all (Nat.eq_zero_of_not_pos hb)
          refine iff_of_false ?_ ?_
          · intro hs
            obtain ⟨ds'', hds'', hmem⟩ := hold.mp hs
            rw [← Option.some.inj hds''] at hmem
            exact hdd (hall d' hmem).symm
          · rintro ⟨ds'', hds'', _⟩
            exact Option.noConfusion hds''
    · rw [if_neg hvv]
      have hne : ¬((did, vid) = (d', v')) := by
        intro e
        exact hvv (congrArg Prod.snd e)
      rw [if_neg hne]
      exact inv.cons_v2d d' v'
  · intro d' v'
    rw [alist_get_remove, hd2vGet d']
    by_cases hdd : did = d'
    · subst hdd
      rw [if_pos rfl]
      by_cases hvv : vid = v'
      · subst hvv
        rw [if_pos rfl]
        simp only [Option.isSome_none, Bool.false_eq_true, false_iff]
        rintro ⟨vs'', hvs'', hmem⟩
        by_cases hb : (uset_remove vs vid).length > 0
        · rw [if_pos hb] at hvs''
          rw [← Option.some.inj hvs''] at hmem
          exact (mem_uset_remove.mp hmem).2 rfl
        · rw [if_neg hb] at hvs''
          exact Option.noConfusion hvs''
      · have hne : ¬((did, vid) = (did, v')) := by
          intro e
          exact hvv (congrArg Prod.snd e)
        rw [if_neg hne]
        have hold := inv.cons_d2v did v'
        rw [hvs] at hold
        by_cases hb : (uset_remove vs vid).length > 0
        · rw [if_pos hb]
          constructor
          · intro hs
            obtain ⟨vs'', hvs'', hmem⟩ := hold.mp hs
            rw [← Option.some.inj hvs''] at hmem
            refine ⟨_, rfl, mem_uset_remove.mpr ⟨hmem, fun e => hvv e.symm⟩⟩
          · rintro ⟨vs'', hvs'', hmem⟩
            rw [← Option.some.inj hvs''] at hmem
            exact hold.mpr ⟨vs, rfl, (mem_uset_remove.mp hmem).1⟩
        · rw [if_neg hb]
          have hall := uset_remove_empty_all (Nat.eq_zero_of_not_pos hb)
          refine iff_of_false ?_ ?_
          · intro hs
            obtain ⟨vs'', hvs'', hmem⟩ := hold.mp hs
            rw [← Option.some.inj hvs''] at hmem
            exact hvv (hall v' hmem).symm
          · rintro ⟨vs'', hvs'', _⟩
            exact Option.noConfusion hvs''
    · rw [if_neg hdd]
      have hne : ¬((did, vid) = (d', v')) := by
        intro e
        exact hdd (congrArg Prod.fst e)
      rw [if_neg hne]
      exact inv.cons_d2v d' v'
  · intro d' v' hd'
    rw [alist_get_remove] at hd'
    by_cases he : (did, vid) = (d', v')
    · rw [if_pos he] at hd'
      simp at hd'
    · rw [if_neg he] at hd'
      have := inv.dv_exists d' v' hd'
      rw [alist_get_insert]
      by_cases hvv : vid = v' <;> simp [hvv, this]
  · intro v' validator' hv'
    rw [alist_get_insert] at hv'
    by_cases hvv : vid = v'
    · subst hvv
      rw [if_pos rfl] at hv'
      rw [← Option.some.inj hv']
      show validator.total_stake - delegator.deposit_amount =
        validator.deposit_amount + delegSum (alist_remove s.delegators (did, vid)) vid
      omega
    · rw [if_neg hvv] at hv'
      have := inv.veq v' validator' hv'
      rw [delegSum_remove_ne hvv]
      exact this
  · show s.total_stake - delegator.deposit_amount =
      msum _ (alist_insert s.validators vid _)
    rw [msum_insert]
    show s.total_stake - delegator.deposit_amount =
      validator.total_stake - delegator.deposit_amount +
        msum (fun validator => validator.total_stake) (alist_remove s.validators vid)
    omega

theorem vsinv_validator_unbonded (s : ValidatorSet) (env : Env) (h : StakingHistory)
    (vid : AccountId) (amount : Nat)
    (hfact : h.staking_fact = StakingFact.ValidatorUnbonded vid amount)
    (inv : VSInv s) (hpre : factPre s h.staking_fact = true) :
    ∃ s', s.apply_staking_history env h = some s' ∧ VSInv s' := by
  rw [hfact] at hpre
  simp only [factPre] at hpre
  obtain ⟨validator, hgetv⟩ := contains_eq_true_get_some hpre
  have hvt : validator.total_stake ≤ s.total_stake := by
    rw [inv.aggr]
    simpa using le_msum_of_get (f := fun validator => validator.total_stake)
      inv.nk_validators hgetv
  have hrm : msum (fun validator => validator.total_stake)
        (alist_remove s.validators vid) + validator.total_stake =
      msum (fun validator => validator.total_stake) s.validators := by
    simpa using msum_remove_add (f := fun validator => validator.total_stake)
      inv.nk_validators hgetv
  have haggr := inv.aggr
  obtain ⟨s', happly, he, hvals, hidset, htot, hv2d, hdel, hd2v⟩ :=
    apply_validator_unbonded_spec s env h vid amount validator hfact hgetv hvt
  have hdsnodup : (dsOf s vid).Nodup := by
    unfold dsOf
    rcases hc : alist_get s.validator_id_to_delegator_id_set vid with _ | ds
    · exact List.nodup_nil
    · exact inv.nd_v2d vid ds hc
  have hdelnone : ∀ d', d' ∉ dsOf s vid →
      alist_get s.delegators (d', vid) = none := by
    intro d' hd'
    rcases ho : alist_get s.delegators (d', vid) with _ | del
    · rfl
    · exfalso
      obtain ⟨ds2, hds2, hmem2⟩ := (inv.cons_v2d d' vid).mp (by simp [ho])
      apply hd'
      unfold dsOf
      rw [hds2]
      exact hmem2
  have hdelGet : ∀ d' v', alist_get s'.delegators (d', v') =
      if v' = vid ∧ d' ∈ dsOf s vid then none else alist_get s.delegators (d', v') := by
    intro d' v'
    rw [hdel, foldl_remove_get]
  have hdelVidNone : ∀ d', alist_get s'.delegators (d', vid) = none := by
    intro d'
    rw [hdelGet]
    by_cases hd : d' ∈ dsOf s vid
    · simp [hd]
    · simp only [hd, and_false, if_false]
      exact hdelnone d' hd
  refine ⟨s', happly, ?_, ?_, ?_, ?_, ?_, ?_, ?_, ?_, ?_, ?_, ?_⟩
  · rw [hvals]
    exact nodupKeys_remove _ inv.nk_validators
  · rw [hdel]
    exact foldl_remove_nodupKeys _ _ _ inv.nk_delegators
  · rw [hv2d]
    exact nodupKeys_remove _ inv.nk_v2d
  · rw [hd2v]
    exact foldl_d2vPrune_nodupKeys _ _ _ inv.nk_d2v
  · intro v' ds' hds'
    rw [hv2d, alist_get_remove] at hds'
    by_cases hvv : vid = v'
    · rw [if_pos hvv] at hds'
      exact Option.noConfusion hds'
    · rw [if_neg hvv] at hds'
      exact inv.nd_v2d v' ds' hds'
  · intro d' vs' hvs'
    rw [hd2v] at hvs'
    by_cases hd : d' ∈ dsOf s vid
    · rcases hc : alist_get s.delegator_id_to_validator_id_set d' with _ | vs0
      · rw [foldl_d2vPrune_get_mem_none vid _ hdsnodup _ _ hd hc] at hvs'
        exact Option.noConfusion hvs'
      · rw [foldl_d2vPrune_get_mem_some vid _ hdsnodup _ _ hd vs0 hc] at hvs'
        by_cases hb : (uset_remove vs0 vid).length > 0
        · rw [if_pos hb] at hvs'
          rw [← Option.some.inj hvs']
          exact nodup_uset_remove _ (inv.nd_d2v d' vs0 hc)
        · rw [if_neg hb] at hvs'
          exact Option.noConfusion hvs'
    · rw [foldl_d2vPrune_get_notmem vid _ _ _ hd] at hvs'
      exact inv.nd_d2v d' vs' hvs'
  · intro d' v'
    rw [hv2d, alist_get_remove]
    by_cases hvv : vid = v'
    · subst hvv
      rw [if_pos rfl]
      rw [hdelVidNone d']
      refine iff_of_false (by simp) ?_
      rintro ⟨ds2, hds2, _⟩
      exact Option.noConfusion hds2
    · rw [if_neg hvv]
      rw [hdelGet]
      rw [if_neg (fun hc => hvv hc.1.symm)]
      exact inv.cons_v2d d' v'
  · intro d' v'
    rw [hd2v]
    by_cases hd : d' ∈ dsOf s vid
    · have hvidSome : (alist_get s.delegators (d', vid)).isSome := by
        apply (inv.cons_v2d d' vid).mpr
        have hsome : alist_get s.validator_id_to_delegator_id_set vid =
            some (dsOf s vid) := by
          rcases hc : alist_get s.validator_id_to_delegator_id_set vid with _ | ds
          · exfalso
            have hnil : dsOf s vid = [] := by unfold dsOf; rw [hc]
            rw [hnil] at hd
            simp at hd
          · have hds : dsOf s vid = ds := by unfold dsOf; rw [hc]
            rw [hds]
        exact ⟨dsOf s vid, hsome, hd⟩
      obtain ⟨vs0, hvs0, hvidmem⟩ := (inv.cons_d2v d' vid).mp hvidSome
      rw [foldl_d2vPrune_get_mem_some vid _ hdsnodup _ _ hd vs0 hvs0]
      by_cases hvv : v' = vid
      · subst hvv
        rw [hdelVidNone d']
        refine iff_of_false (by simp) ?_
        rintro ⟨vs2, hvs2, hmem2⟩
        by_cases hb : (uset_remove vs0 v').length > 0
        · rw [if_pos hb] at hvs2
          rw [← Option.some.inj hvs2] at hmem2
          exact (mem_uset_remove.mp hmem2).2 rfl
        · rw [if_neg hb] at hvs2
          exact Option.noConfusion hvs2
      · rw [hdelGet, if_neg (fun hc => hvv hc.1)]
        have hold := inv.cons_d2v d' v'
        rw [hvs0] at hold
        by_cases hb : (uset_remove vs0 vid).length > 0
        · rw [if_pos hb]
          constructor
          · intro hs
            obtain ⟨vs2, hvs2, hmem2⟩ := hold.mp hs
            rw [← Option.some.inj hvs2] at hmem2
            exact ⟨_, rfl, mem_uset_remove.mpr ⟨hmem2, hvv⟩⟩
          · rintro ⟨vs2, hvs2, hmem2⟩
            rw [← Option.some.inj hvs2] at hmem2
            exact hold.mpr ⟨vs0, rfl, (mem_uset_remove.mp hmem2).1⟩
        · rw [if_neg hb]
          have hall := uset_remove_empty_all (Nat.eq_zero_of_not_pos hb)
          refine iff_of_false ?_ ?_
          · intro hs
            obtain ⟨vs2, hvs2, hmem2⟩ := hold.mp hs
            rw [← Option.some.inj hvs2] at hmem2
            exact hvv (hall v' hmem2)
          · rintro ⟨vs2, hvs2, _⟩
            exact Option.noConfusion hvs2
    · rw [foldl_d2vPrune_get_notmem vid _ _ _ hd]
      rw [hdelGet]
      by_cases hvv : v' = vid
      · subst hvv
        rw [if_neg (fun hc => hd hc.2)]
        exact inv.cons_d2v d' v'
      · rw [if_neg (fun hc => hvv hc.1)]
        exact inv.cons_d2v d' v'
  · intro d' v' hd'
    by_cases hvv : v' = vid
    · subst hvv
      rw [hdelVidNone d'] at hd'
      simp at hd'
    · rw [hdelGet, if_neg (fun hc => hvv hc.1)] at hd'
      have := inv.dv_exists d' v' hd'
      rw [hvals, alist_get_remove, if_neg (fun e => hvv e.symm)]
      exact this
  · intro v' validator' hv'
    rw [hvals, alist_get_remove] at hv'
    by_cases hvv : vid = v'
    · rw [if_pos hvv] at hv'
      exact Option.noConfusion hv'
    · rw [if_neg hvv] at hv'
      have := inv.veq v' validator' hv'
      rw [hdel, foldl_remove_delegSum vid _ _ _ (fun e => hvv e.symm)]
      exact this
  · rw [htot, hvals]
    have : msum (fun validator => validator.total_stake)
        (alist_remove s.validators vid) =
        msum (fun validator => validator.total_stake) s.validators -
          validator.total_stake := by
      omega
    rw [this]
    omega

theorem vsinv_preserve (s : ValidatorSet) (env : Env) (h : StakingHistory)
    (inv : VSInv s) (hpre : factPre s h.staking_fact = true) :
    ∃ s', s.apply_staking_history env h = some s' ∧ VSInv s' := by
  cases hfact : h.staking_fact with
  | ValidatorRegistered vid aid amount can =>
      exact vsinv_validator_registered s env h vid aid amount can hfact inv hpre
  | StakeIncreased vid amount =>
      exact vsinv_stake_increased s env h vid amount hfact inv hpre
  | StakeDecreased vid amount =>
      exact vsinv_stake_decreased s env h vid amount hfact inv hpre
  | ValidatorUnbonded vid amount =>
      exact vsinv_validator_unbonded s env h vid amount hfact inv hpre
  | ValidatorDelegationEnabled vid =>
      exact vsinv_delegation_enabled s env h vid hfact inv hpre
  | ValidatorDelegationDisabled vid =>
      exact vsinv_delegation_disabled s env h vid hfact inv hpre
  | DelegatorRegistered did vid amount =>
      exact vsinv_delegator_registered s env h did vid amount hfact inv hpre
  | DelegationIncreased did vid amount =>
      exact vsinv_delegation_increased s env h did vid amount hfact inv hpre
  | DelegationDecreased did vid amount =>
      exact vsinv_delegation_decreased s env h did vid amount hfact inv hpre
  | DelegatorUnbonded did vid amount =>
      exact vsinv_delegator_unbonded s env h did vid amount hfact inv hpre

theorem vsinv_new (n : Nat) : VSInv (ValidatorSet.new n) := by
  refine ⟨List.nodup_nil, List.nodup_nil, List.nodup_nil, List.nodup_nil,
    ?_, ?_, ?_, ?_, ?_, ?_, rfl⟩
  · intro v ds hds
    exact absurd hds (by simp [ValidatorSet.new])
  · intro d vs hvs
    exact absurd hvs (by simp [ValidatorSet.new])
  · intro d v
    simp [ValidatorSet.new]
  · intro d v
    simp [ValidatorSet.new]
  · intro d v hd
    exact absurd hd (by simp [ValidatorSet.new])
  · intro v validator hv
    exact absurd hv (by simp [ValidatorSet.new])

theorem stakeInvariantsHold_of_vsinv {s : ValidatorSet} (inv : VSInv s) :
    stakeInvariantsHold s = true := by
  unfold stakeInvariantsHold
  rw [Bool.and_eq_true]
  constructor
  · exact decide_eq_true inv.aggr
  · rw [List.all_eq_true]
    intro p hp
    apply decide_eq_true
    exact inv.veq p.1 p.2
      (alist_get_of_mem inv.nk_validators (by rw [Prod.mk.eta]; exact hp))

theorem applyFacts_take_inv (env : Env) (l : List StakingHistory) :
    ∀ (s : ValidatorSet), VSInv s → factPresHold env s l = true →
      ∀ k, ∃ s', applyFacts env s (l.take k) = some s' ∧ VSInv s' := by
  induction l with
  | nil =>
      intro s inv _ k
      exact ⟨s, by simp [applyFacts], inv⟩
  | cons hh t ih =>
      intro s inv hp k
      rw [factPresHold, Bool.and_eq_true] at hp
      obtain ⟨hp1, hp2⟩ := hp
      obtain ⟨s₁, happ, inv₁⟩ := vsinv_preserve s env hh inv hp1
      rw [happ] at hp2
      cases k with
      | zero => exact ⟨s, by simp [applyFacts], inv⟩
      | succ k' =>
          obtain ⟨s', happ', inv'⟩ := ih s₁ inv₁ hp2 k'
          refine ⟨s', ?_, inv'⟩
          rw [List.take_succ_cons, applyFacts, happ]
          exact happ'

/-- C9: starting from a fresh `ValidatorSet`, for every sequence of staking
facts whose stepwise preconditions hold (referenced validators/delegators
exist, registrations are not duplicates, no amount underflows, sums stay in
`u128`), applying every prefix succeeds and after every step the two stake
equations hold: each validator's `total_stake` equals its `deposit_amount`
plus the sum of its delegators' deposits, and the set's `total_stake`
equals the sum of all validators' `total_stake`. -/
theorem C9_stake_invariants (env : Env) (n : Nat) (l : List StakingHistory)
    (hpres : factPresHold env (ValidatorSet.new n) l = true) :
    ∀ k, ∃ s', applyFacts env (ValidatorSet.new n) (l.take k) = some s' ∧
      stakeInvariantsHold s' = true := by
  intro k
  obtain ⟨s', h1, h2⟩ :=
    applyFacts_take_inv env l (ValidatorSet.new n) (vsinv_new n) hpres k
  exact ⟨s', h1, stakeInvariantsHold_of_vsinv h2⟩

/-- Witness for C9: a five-step register/delegate/increase/unbond sequence. -/
theorem C9_stake_invariants_witness :
    factPresHold ⟨1, 1⟩ (ValidatorSet.new 0) c9Facts = true ∧
    (∃ s', applyFacts ⟨1, 1⟩ (ValidatorSet.new 0) (c9Facts.take 5) = some s' ∧
      stakeInvariantsHold s' = true) :=
  ⟨by decide, C9_stake_invariants ⟨1, 1⟩ 0 c9Facts (by decide) 5⟩

end DiscovolAnchor
